import Mathlib

/-!
# Verification of the Blackjack Monte-Carlo / bandit repository

Shallow embedding of `rl_project/src/blackjack_module.py` and
`rl_project/src/eval_feed_module.py` (Python 2, numpy).

Modelling conventions:
* Cards are natural numbers; a shuffled deck is a `List ℕ` consumed
  front-to-back.  All randomness of the source (`np.random.shuffle`,
  `np.random.choice`, `np.random.uniform`, `np.random.normal`) is made
  explicit as oracle streams passed in as parameters: a run of the Python
  program with a fixed seed corresponds to fixed streams.
* Python `float` arithmetic is modelled over `ℚ`; `np.mean` of a nonempty
  list is the exact rational mean (the source only ever averages lists of
  integer payoffs / accumulated rewards).
* Python dictionaries keyed by tuples are modelled either as association
  lists (`get_value_simple`, where the key set matters to the claims) or as
  partial maps `k → Option v` (the exploring-starts tables, which are
  pre-initialised on a fixed finite domain).  A `none` lookup models a
  Python `KeyError`.
* A raised exception is modelled by `Except`: `RunError.deckEmpty` is an
  index error on an exhausted deck, `RunError.keyError` a dictionary miss,
  `RunError.assertError` the failed `assert` in the policy-improvement step.
-/

namespace RLRepo

/-! ## Card and hand model (blackjack_module.py, lines 21-159) -/

/-- Model of `get_standard_hand` applied to a single card: `((card - 1) mod 13) + 1`
(blackjack_module.py line 53).  Maps a raw card 1..52 to its rank 1..13. -/
def get_standard_card (c : ℕ) : ℕ := (c - 1) % 13 + 1

/-- Model of `get_standard_hand(hand)` (line 53): rank of every card of the hand. -/
def get_standard_hand (hand : List ℕ) : List ℕ := hand.map get_standard_card

/-- Value of a single standard rank: face cards count 10
(`np.minimum(standard_hand, 10)`, line 103). -/
def cardValue (r : ℕ) : ℕ := min r 10

/-- The "naive" hand total: `value_per_card.sum()` (line 104), the sum of
`min(rank, 10)` over the (standardised) cards, before any ace upgrade. -/
def rawSum (hand : List ℕ) : ℕ := ((get_standard_hand hand).map cardValue).sum

/-- Model of `(standard_hand == 1).any()` (line 105): the hand contains an ace. -/
def hasAce (hand : List ℕ) : Bool := (get_standard_hand hand).any (fun r => r = 1)

/-- Model of `get_hand_value(hand)` (lines 75-110): naive sum of `min(rank, 10)`;
if the hand holds an ace and that sum is at most 11, exactly one ace is
upgraded (+10) and `usable_ace = True`.  Returns `(hand_value, usable_ace)`
(the third Python return value `standard_hand` is derivable and omitted). -/
def get_hand_value (hand : List ℕ) : ℕ × Bool :=
  if hasAce hand ∧ rawSum hand ≤ 11 then (rawSum hand + 10, true)
  else (rawSum hand, false)

/-- Model of `get_player_state(hand_player, card_dealer)` (lines 112-142):
the state triple `(player_value, card_dealer, usable_ace_player)`. -/
def get_player_state (hand_player : List ℕ) (card_dealer : ℕ) : ℕ × ℕ × Bool :=
  ((get_hand_value hand_player).1, card_dealer, (get_hand_value hand_player).2)

/-- Model of `get_payoff(player_value, dealer_value)` (lines 161-185). -/
def get_payoff (player_value dealer_value : ℤ) : ℤ :=
  if player_value > 21 then -1
  else if player_value ≤ 21 ∧ dealer_value > 21 then 1
  else if player_value < dealer_value then -1
  else if player_value = dealer_value then 0
  else 1

/-! ## Episode simulation (blackjack_module.py, lines 187-301)

All simulation loops recurse structurally on the remaining deck, which the
source consumes strictly front-to-back; the deck is therefore passed as the
first list argument of each loop. -/

/-- A raised Python exception. -/
inductive RunError where
  | deckEmpty
  | keyError
  | assertError
  deriving DecidableEq

/-- Model of `deal(deck_shuffled)` (lines 55-73): two standardised cards to the player,
two to the dealer, the dealer's first card is the upcard.  numpy slicing
truncates silently on a short deck, but `hand_dealer[0]` on an empty slice
raises; that is the only error case. -/
def deal (deck : List ℕ) :
    Except RunError (List ℕ × List ℕ × ℕ × List ℕ) :=
  match (get_standard_hand ((deck.drop 2).take 2)).head? with
  | none => .error .deckEmpty
  | some card_dealer =>
    .ok (get_standard_hand (deck.take 2), get_standard_hand ((deck.drop 2).take 2),
      card_dealer, (deck.drop 2).drop 2)

/-- Model of `hit(hand, deck)` (lines 144-159) given the drawn top card: append its
standardised rank to the hand. -/
def hitCard (hand : List ℕ) (c : ℕ) : List ℕ := hand ++ [get_standard_card c]

/-- The dealer loop (lines 237-242, 294-297, 487-490):
`while dealer_value < min(17, player_value): hit dealer`.
Arguments: player's final value, remaining deck, dealer hand.  Returns the
final dealer hand, the remaining deck, and the trace of dealer totals
observed immediately before each draw. -/
def dealerLoop (player_value : ℕ) :
    List ℕ → List ℕ → Except RunError (List ℕ × List ℕ × List ℕ)
  | deck, hand =>
    if (get_hand_value hand).1 < min 17 player_value then
      match deck with
      | [] => .error .deckEmpty
      | c :: rest =>
        match dealerLoop player_value rest (hitCard hand c) with
        | .error e => .error e
        | .ok (h, d, tr) => .ok (h, d, (get_hand_value hand).1 :: tr)
    else .ok (hand, deck, [])

/-- The threshold-policy player loop of `run_sequential` (lines 224-233) and
`get_value_simple` (lines 287-291): `while player_value < player_stick: hit`.
Arguments: threshold, remaining deck, player hand. -/
def simplePlayerLoop (player_stick : ℕ) :
    List ℕ → List ℕ → Except RunError (List ℕ × List ℕ)
  | deck, hand =>
    if (get_hand_value hand).1 < player_stick then
      match deck with
      | [] => .error .deckEmpty
      | c :: rest => simplePlayerLoop player_stick rest (hitCard hand c)
    else .ok (hand, deck)

/-- Model of `np.mean` of a list of integer payoffs, over `ℚ` (mean of `[]` is `0`;
the source never averages an empty list on a non-degenerate run). -/
def listMean (l : List ℤ) : ℚ := (l.sum : ℚ) / (l.length : ℚ)

/-- One episode of `run_sequential` (lines 202-246): deal, threshold player
policy, dealer loop, terminal payoff. -/
def runSequentialEpisode (player_stick : ℕ) (deck : List ℕ) : Except RunError ℤ :=
  match deal deck with
  | .error e => .error e
  | .ok (hand_player, hand_dealer, _card_dealer, deck1) =>
    match simplePlayerLoop player_stick deck1 hand_player with
    | .error e => .error e
    | .ok (hp, deck2) =>
      let player_value := (get_hand_value hp).1
      match dealerLoop player_value deck2 hand_dealer with
      | .error e => .error e
      | .ok (hd, _, _) => .ok (get_payoff player_value (get_hand_value hd).1)

/-- Model of `run_sequential(num_experiments, player_stick)` (lines 187-249), with the
per-episode shuffled decks passed as an explicit stream.  Returns the payoff
list, its mean and the threshold. -/
def run_sequential (decks : ℕ → List ℕ) (num_experiments player_stick : ℕ) :
    Except RunError (List ℤ × ℚ × ℕ) :=
  match (List.range num_experiments).mapM
      (fun i => runSequentialEpisode player_stick (decks i)) with
  | .error e => .error e
  | .ok payoffs => .ok (payoffs, listMean payoffs, player_stick)

/-! ## Association-list model of the Python dictionaries -/

/-- Dictionary lookup. -/
def alookup {K V : Type} [DecidableEq K] (d : List (K × V)) (k : K) : Option V :=
  (d.find? (fun e => decide (e.1 = k))).map Prod.snd

/-- Model of `dict.setdefault(k, v)`. -/
def asetdefault {K V : Type} [DecidableEq K] (d : List (K × V)) (k : K) (v : V) :
    List (K × V) :=
  if (alookup d k).isSome then d else d ++ [(k, v)]

/-- In-place modification of the value at an existing key, as in
`value_dict[key].append(payoff)` (a no-op on an absent key; the source only
modifies keys it has just `setdefault`-ed). -/
def amodify {K V : Type} [DecidableEq K] (d : List (K × V)) (k : K) (f : V → V) :
    List (K × V) :=
  d.map (fun e => if e.1 = k then (e.1, f e.2) else e)

/-! ## Fixed-policy Monte-Carlo evaluation (lines 251-334) -/

/-- One episode of `get_value_simple` (lines 274-300).  The key stored (and
credited with the terminal payoff) is the *initial* state
`(player_value_init, card_dealer, usable_ace_player_init)`; note the source
applies no forced-hit loop here, so the initial value may be below 12. -/
def getValueSimpleEpisode (player_stick : ℕ) (deck : List ℕ)
    (value_dict : List ((ℕ × ℕ × Bool) × List ℤ)) :
    Except RunError (List ((ℕ × ℕ × Bool) × List ℤ)) :=
  match deal deck with
  | .error e => .error e
  | .ok (hand_player, hand_dealer, card_dealer, deck1) =>
    let st0 := get_player_state hand_player card_dealer
    let d1 := asetdefault value_dict st0 []
    match simplePlayerLoop player_stick deck1 hand_player with
    | .error e => .error e
    | .ok (hp, deck2) =>
      let player_value := (get_hand_value hp).1
      match dealerLoop player_value deck2 hand_dealer with
      | .error e => .error e
      | .ok (hd, _, _) =>
        .ok (amodify d1 st0 (fun l => l ++ [get_payoff player_value (get_hand_value hd).1]))

/-- Model of `get_value_simple(num_experiments, player_stick)` (lines 251-301), with
the per-episode shuffled decks passed as an explicit stream. -/
def get_value_simple (decks : ℕ → List ℕ) (num_experiments player_stick : ℕ) :
    Except RunError (List ((ℕ × ℕ × Bool) × List ℤ)) :=
  (List.range num_experiments).foldlM
    (fun d i => getValueSimpleEpisode player_stick (decks i) d) []

/-- Model of `split_filter_average(value_dict)` (lines 303-334): split on the
usable-ace flag, drop no-ace entries with player value ≤ 11, average. -/
def split_filter_average (value_dict : List ((ℕ × ℕ × Bool) × List ℤ)) :
    List ((ℕ × ℕ × Bool) × ℚ) × List ((ℕ × ℕ × Bool) × ℚ) :=
  let value_dict_ace := value_dict.filter (fun e => e.1.2.2 == true)
  let value_dict_no_ace :=
    value_dict.filter (fun e => decide (e.1.2.2 = false ∧ 11 < e.1.1))
  (value_dict_ace.map (fun e => (e.1, listMean e.2)),
   value_dict_no_ace.map (fun e => (e.1, listMean e.2)))

/-- Concrete deck for the C2 counterexample: player draws ranks 2,2
(initial value 4 < 12), dealer shows 10 over a 19 total. -/
def c2deck : List ℕ := [2, 15, 10, 22, 5, 6, 18]

/-! ## Running means (blackjack line 507-509, eval_feed lines 77-81) -/

/-- The spec's incremental running-mean rule:
`new_mean = old_mean + (return − old_mean) / new_count`. -/
def incMean (old_mean r : ℚ) (new_count : ℕ) : ℚ :=
  old_mean + (r - old_mean) / (new_count : ℚ)

/-- blackjack_module.py lines 507-509: append the payoff to the detailed
return list and recompute the running average with `np.mean`. -/
def blackjackUpdatePair (l : List ℤ) (payoff : ℤ) : List ℤ × ℚ :=
  (l ++ [payoff], listMean (l ++ [payoff]))

/-- Model of `np.mean` of a list of rational rewards (mean of `[]` is `0`). -/
def qListMean (l : List ℚ) : ℚ := l.sum / (l.length : ℚ)

/-- eval_feed_module.py lines 77-81: `q_counter += 1`,
`q_aggregated += reward`, `q_estimated = q_aggregated / q_counter`.
Returns the new `(q_counter, q_aggregated, q_estimated)`. -/
def banditUpdate (q_counter q_aggregated reward : ℚ) : ℚ × ℚ × ℚ :=
  (q_counter + 1, q_aggregated + reward, (q_aggregated + reward) / (q_counter + 1))

/-! ## Exploring-starts control (blackjack_module.py, lines 401-529)

The three process-wide dictionaries are modelled as partial maps pre-defined
exactly on the initialised key sets; a `none` lookup is a `KeyError`. -/

/-- A Blackjack state `(player_value, card_dealer, usable_ace)`. -/
abbrev BJState : Type := ℕ × ℕ × Bool

/-- Pointwise update of a partial map (Python dictionary assignment:
create-or-replace). -/
def oupdate {K V : Type} [DecidableEq K] (f : K → Option V) (k : K) (v : V) :
    K → Option V :=
  fun x => if x = k then some v else f x

/-- Pointwise update of a total map (numpy array cell assignment). -/
def fupdate {K V : Type} [DecidableEq K] (f : K → V) (k : K) (v : V) : K → V :=
  fun x => if x = k then v else f x

/-- The keys pre-initialised by the loops of lines 424-428: player value in
[12, 21], dealer card in [1, 13], both ace flags. -/
def validState (s : BJState) : Prop :=
  12 ≤ s.1 ∧ s.1 ≤ 21 ∧ 1 ≤ s.2.1 ∧ s.2.1 ≤ 13

instance : DecidablePred validState := fun s => by unfold validState; infer_instance

/-- Model of `policy_dict` after the initialisation loops (lines 422-428): action 0
(stick) on each of the 260 valid states. -/
def policyInit : BJState → Option ℕ :=
  fun s => if validState s then some 0 else none

/-- Model of `Q_dict_detailed` after initialisation (lines 429-439): the empty return
list on each (valid state, action < 2) pair. -/
def QdInit : BJState × ℕ → Option (List ℤ) :=
  fun k => if validState k.1 ∧ k.2 < 2 then some [] else none

/-- Model of `Q_dict_average` after initialisation (lines 429-440): average 0.0 on
each (valid state, action < 2) pair. -/
def QaInit : BJState × ℕ → Option ℚ :=
  fun k => if validState k.1 ∧ k.2 < 2 then some (0 : ℚ) else none

/-- The three mutable tables of `get_value_exploring_starts`. -/
structure ESDicts where
  policy : BJState → Option ℕ
  Qd : BJState × ℕ → Option (List ℤ)
  Qa : BJState × ℕ → Option ℚ

/-- The tables right after the initialisation loops. -/
def initDicts : ESDicts := ⟨policyInit, QdInit, QaInit⟩

/-- The 260 pre-initialised states, as an explicit enumeration. -/
def validStatesList : List BJState :=
  (List.range' 12 10).flatMap fun i =>
    (List.range' 1 13).flatMap fun j => [(i, j, false), (i, j, true)]

/-- The 520 pre-initialised (state, action) pairs. -/
def validPairsList : List (BJState × ℕ) :=
  validStatesList.flatMap fun s => [(s, 0), (s, 1)]

/-- Lines 511-517: `Q_check_action` holds the two action values of
`key_state` in dictionary order [action 0, action 1]; `max_action2` is the
key at the first list position attaining `max(values)`. -/
def scanMaxAction (q0 q1 : ℚ) : ℕ :=
  if q0 = max q0 q1 then 0 else 1

/-- Lines 519-523: `max_action1`, the direct comparison
`Q_dict_average[(key_state, 0)] >= Q_dict_average[(key_state, 1)]`,
ties favouring stick (action 0). -/
def directMaxAction (q0 q1 : ℚ) : ℕ :=
  if q1 ≤ q0 then 0 else 1

/-- One iteration of the credit-assignment / policy-improvement loop
(lines 499-527) for trajectory entry `s`: skip busted states; read the
policy's action for `s`, append the payoff to that pair's return list,
recompute its mean, re-read both action values, compare the scanned and the
direct argmax (`assert max_action2 == max_action1`), store the greedy
action. -/
def creditStep (payoff : ℤ) (d : ESDicts) (s : BJState) : Except RunError ESDicts :=
  if s.1 ≤ 21 then
    match d.policy s with
    | none => .error .keyError
    | some action =>
      match d.Qd (s, action) with
      | none => .error .keyError
      | some l =>
        match oupdate d.Qa (s, action) (blackjackUpdatePair l payoff).2 (s, 0),
              oupdate d.Qa (s, action) (blackjackUpdatePair l payoff).2 (s, 1) with
        | some q0, some q1 =>
          if scanMaxAction q0 q1 = directMaxAction q0 q1 then
            .ok ⟨oupdate d.policy s (directMaxAction q0 q1),
                 oupdate d.Qd (s, action) (blackjackUpdatePair l payoff).1,
                 oupdate d.Qa (s, action) (blackjackUpdatePair l payoff).2⟩
          else .error .assertError
        | _, _ => .error .keyError
  else .ok d

/-- The whole credit-assignment loop `for i in range(num_hits+1)`
(lines 499-527) over the recorded trajectory. -/
def creditFold (payoff : ℤ) : List BJState → ESDicts → Except RunError ESDicts
  | [], d => .ok d
  | s :: rest, d =>
    match creditStep payoff d s with
    | .error e => .error e
    | .ok d' => creditFold payoff rest d'

/-- The forced-hit loop `while player_value < 12` (lines 452-456).
Arguments: remaining deck, player hand. -/
def forcedHits : List ℕ → List ℕ → Except RunError (List ℕ × List ℕ)
  | deck, hand =>
    if (get_hand_value hand).1 < 12 then
      match deck with
      | [] => .error .deckEmpty
      | c :: rest => forcedHits rest (hitCard hand c)
    else .ok (hand, deck)

/-- The exploring-starts player loop
`while exploring_policy and player_value <= 21` (lines 467-483).
Arguments: policy table, dealer upcard, remaining deck, hand, current
action.  Returns the appended non-busted states paired with the action the
policy prescribed there, the optional trailing busted state, the final hand
and the remaining deck. -/
def playerLoop (policy : BJState → Option ℕ) (card_dealer : ℕ) :
    List ℕ → List ℕ → ℕ →
    Except RunError (List (BJState × ℕ) × Option BJState × List ℕ × List ℕ)
  | deck, hand, action =>
    if action ≠ 0 ∧ (get_hand_value hand).1 ≤ 21 then
      match deck with
      | [] => .error .deckEmpty
      | c :: rest =>
        if (get_player_state (hitCard hand c) card_dealer).1 ≤ 21 then
          match policy (get_player_state (hitCard hand c) card_dealer) with
          | none => .error .keyError
          | some a =>
            match playerLoop policy card_dealer rest (hitCard hand c) a with
            | .error e => .error e
            | .ok (ps, bust, h, dk) =>
              .ok ((get_player_state (hitCard hand c) card_dealer, a) :: ps, bust, h, dk)
        else .ok ([], some (get_player_state (hitCard hand c) card_dealer), hitCard hand c, rest)
    else .ok ([], none, hand, deck)

/-- Everything one episode of `get_value_exploring_starts` produces: the
updated tables, the recorded trajectory (`state`, as the source keeps it),
the visited (state, action) pairs of the non-busted states, and the terminal
payoff. -/
structure EpisodeResult where
  dicts : ESDicts
  states : List BJState
  pairs : List (BJState × ℕ)
  payoff : ℤ

/-- Episode stage 5 (lines 499-527): credit assignment over the recorded
trajectory, packaging the episode result. -/
def esCredit (payoff : ℤ) (states : List BJState) (pairs : List (BJState × ℕ))
    (d : ESDicts) : Except RunError EpisodeResult :=
  match creditFold payoff states d with
  | .error e => .error e
  | .ok d' => .ok ⟨d', states, pairs, payoff⟩

/-- Episode stage 4 (lines 486-497): dealer loop and terminal payoff. -/
def esDealer (hand_dealer : List ℕ) (player_value : ℕ) (deck3 : List ℕ)
    (states : List BJState) (pairs : List (BJState × ℕ)) (d : ESDicts) :
    Except RunError EpisodeResult :=
  match dealerLoop player_value deck3 hand_dealer with
  | .error e => .error e
  | .ok (hd, _, _) =>
    esCredit (get_payoff player_value (get_hand_value hd).1) states pairs d

/-- Episode stage 3 (lines 457-484): record the first state, overwrite its
policy entry with the exploring-start draw, run the player loop, then
assemble the trajectory exactly as the source's `state` list. -/
def esPlayer (d : ESDicts) (esRand : Fin 2) (hand_dealer : List ℕ)
    (card_dealer : ℕ) (hp : List ℕ) (deck2 : List ℕ) :
    Except RunError EpisodeResult :=
  match playerLoop (oupdate d.policy (get_player_state hp card_dealer) (esRand : ℕ))
      card_dealer deck2 hp (esRand : ℕ) with
  | .error e => .error e
  | .ok (ps, bust, hp2, deck3) =>
    esDealer hand_dealer (get_hand_value hp2).1 deck3
      (get_player_state hp card_dealer :: (ps.map Prod.fst ++ bust.toList))
      ((get_player_state hp card_dealer, (esRand : ℕ)) :: ps)
      ⟨oupdate d.policy (get_player_state hp card_dealer) (esRand : ℕ), d.Qd, d.Qa⟩

/-- Episode stage 2 (lines 452-456): the forced-hit loop. -/
def esForce (d : ESDicts) (esRand : Fin 2) (hand_dealer : List ℕ)
    (card_dealer : ℕ) (hand_player : List ℕ) (deck1 : List ℕ) :
    Except RunError EpisodeResult :=
  match forcedHits deck1 hand_player with
  | .error e => .error e
  | .ok (hp, deck2) => esPlayer d esRand hand_dealer card_dealer hp deck2

/-- One episode of `get_value_exploring_starts` (lines 443-527): deal,
forced hits, exploring-start action overwriting the policy at the first
state, player loop, dealer loop, payoff, credit assignment.  `esRand` is the
episode's `np.random.choice(2)` draw. -/
def esEpisode (deck : List ℕ) (esRand : Fin 2) (d : ESDicts) :
    Except RunError EpisodeResult :=
  match deal deck with
  | .error e => .error e
  | .ok (hand_player, hand_dealer, card_dealer, deck1) =>
    esForce d esRand hand_dealer card_dealer hand_player deck1

/-- The episode loop of `get_value_exploring_starts`, threading the tables. -/
def esRun (decks : ℕ → List ℕ) (esRands : ℕ → Fin 2) :
    List ℕ → ESDicts → Except RunError ESDicts
  | [], d => .ok d
  | i :: rest, d =>
    match esEpisode (decks i) (esRands i) d with
    | .error e => .error e
    | .ok res => esRun decks esRands rest res.dicts

/-- Model of `get_value_exploring_starts(num_experiments)` (lines 401-529), with the
shuffled decks and the exploring-start draws passed as explicit streams.
Returns `(Q_dict_average, policy_dict)`. -/
def get_value_exploring_starts (num_experiments : ℕ) (decks : ℕ → List ℕ)
    (esRands : ℕ → Fin 2) :
    Except RunError ((BJState × ℕ → Option ℚ) × (BJState → Option ℕ)) :=
  match esRun decks esRands (List.range num_experiments) initDicts with
  | .error e => .error e
  | .ok d => .ok (d.Qa, d.policy)

/-- The table invariant maintained across episodes: the policy is defined on
every valid state with an action < 2, and both Q tables are defined on every
(valid state, action < 2) pair. -/
def ESInv (d : ESDicts) : Prop :=
  (∀ s, validState s → (d.policy s).isSome) ∧
  (∀ s v, d.policy s = some v → v < 2) ∧
  (∀ s a, validState s → a < 2 → (d.Qd (s, a)).isSome) ∧
  (∀ s a, validState s → a < 2 → (d.Qa (s, a)).isSome)

/-- Strictly increasing measure along a player trajectory: a usable-ace
state (total ≤ 21) precedes every no-ace state reachable from it, and the
total strictly grows within each block. -/
def phase (s : BJState) : ℕ := (if s.2.2 then 0 else 32) + s.1

/-- Concrete deck for the C1 witness: player holds A♠K (21, usable ace),
dealer shows 10 over 19. -/
def c1deck : List ℕ := [1, 13, 10, 9]

/-! ## n-armed bandit (eval_feed_module.py, lines 22-122) -/

/-- Errors an `n_armed_bandit` run can raise.  The source performs no
configuration validation, so `invalidConfiguration` exists only to make the
spec's claimed fail-fast behaviour statable; `valueError` is numpy's
`ValueError` (a negative array dimension at line 41 or 50, or argmax /
random choice over an empty arm axis); `unboundLocalError` is Python's
`UnboundLocalError` raised at line 105, where the plot-title formatting
inside the same function references `sigma`, a local assigned only inside
the innermost play loop (line 72). -/
inductive BanditError where
  | invalidConfiguration
  | valueError
  | unboundLocalError
  deriving DecidableEq

/-- The random draws an `n_armed_bandit` run consumes, as explicit streams
indexed by the flattened play counter: `unif` the `np.random.uniform(0, 1)`
draws, `pick` the outcomes of the softmax `np.random.choice` (the source's
probabilities shape only the distribution, not the trace), `noise` the
`np.random.normal(0, 1)` reward noise. -/
structure BanditStreams where
  unif : ℕ → ℚ
  pick : ℕ → ℕ
  noise : ℕ → ℚ

/-- Model of `q_estimated[i, :].argmax()`: first index attaining the row maximum. -/
def argmaxRow (f : ℕ → ℚ) (n : ℕ) : ℕ :=
  (List.range n).foldl (fun best k => if f best < f k then k else best) 0

/-- The per-`eps` mutable arrays of `n_armed_bandit` (lines 46-51), as total
maps from `(bandit, arm)` / `(bandit, play)` indices, together with the
function-level local `sigma`: `none` while still unassigned, `some 1` once
line 72 (`sigma = 1.0`) has executed in any play iteration. -/
structure BanditTables where
  q_estimated : ℕ × ℕ → ℚ
  q_counter : ℕ × ℕ → ℚ
  q_aggregated : ℕ × ℕ → ℚ
  rewards : ℕ × ℕ → ℚ
  optimal_flag : ℕ × ℕ → ℚ
  sigma : Option ℚ

/-- All-zero initial tables (lines 46-51).  The arrays are re-created for
each `eps`, but `sigma` is a plain function local and carries over, so it is
a parameter here. -/
def banditTables0 (sigma0 : Option ℚ) : BanditTables :=
  ⟨fun _ => 0, fun _ => 0, fun _ => 0, fun _ => 0, fun _ => 0, sigma0⟩

/-- One play `(i, j)` of the bandit loop (lines 54-81): epsilon-greedy arm
selection (greedy argmax when the uniform draw exceeds `eps`, otherwise the
softmax-random draw), optimal-arm bookkeeping, the assignment `sigma = 1.0`
of line 72 (the reward noise is `sigma * normal(0, 1)` with this constant
factor 1 folded into the `noise` oracle), noisy reward, incremental estimate
update. -/
def banditPlayStep (qstar : ℕ → ℕ → ℚ) (st : BanditStreams)
    (num_arms num_plays : ℕ) (eps : ℚ) (i : ℕ) (tb : BanditTables) (j : ℕ) :
    Except BanditError BanditTables :=
  if num_arms = 0 then .error .valueError
  else
    let arm_idx :=
      if eps < st.unif (i * num_plays + j) then
        argmaxRow (fun a => tb.q_estimated (i, a)) num_arms
      else
        st.pick (i * num_plays + j) % num_arms
    let reward := qstar i arm_idx + st.noise (i * num_plays + j)
    let u := banditUpdate (tb.q_counter (i, arm_idx)) (tb.q_aggregated (i, arm_idx)) reward
    .ok
      { q_estimated := fupdate tb.q_estimated (i, arm_idx) u.2.2
        q_counter := fupdate tb.q_counter (i, arm_idx) u.1
        q_aggregated := fupdate tb.q_aggregated (i, arm_idx) u.2.1
        rewards := fupdate tb.rewards (i, j) reward
        optimal_flag := fupdate tb.optimal_flag (i, j)
          (if arm_idx = argmaxRow (qstar i) num_arms then 1 else tb.optimal_flag (i, j))
        sigma := some 1 }

/-- The inner play loop `for j in range(num_plays)` for one bandit `i`. -/
def banditPlaysRun (qstar : ℕ → ℕ → ℚ) (st : BanditStreams)
    (num_arms num_plays : ℕ) (eps : ℚ) (i : ℕ) :
    List ℕ → BanditTables → Except BanditError BanditTables
  | [], tb => .ok tb
  | j :: rest, tb =>
    match banditPlayStep qstar st num_arms num_plays eps i tb j with
    | .error e => .error e
    | .ok tb' => banditPlaysRun qstar st num_arms num_plays eps i rest tb'

/-- The outer bandit loop `for i in range(num_bandits)`. -/
def banditsRun (qstar : ℕ → ℕ → ℚ) (st : BanditStreams)
    (num_arms num_plays : ℕ) (eps : ℚ) :
    List ℕ → BanditTables → Except BanditError BanditTables
  | [], tb => .ok tb
  | i :: rest, tb =>
    match banditPlaysRun qstar st num_arms num_plays eps i (List.range num_plays) tb with
    | .error e => .error e
    | .ok tb' => banditsRun qstar st num_arms num_plays eps rest tb'

/-- One `eps` iteration (lines 44-94): re-create the arrays — where
`np.zeros((num_bandits, num_plays))` at line 50 raises `ValueError` on a
negative play count — run all bandits, then build the average-reward and
optimal-action series (`mean(axis=0)` resp. `sum(axis=0)/num_bandits`; the
degenerate 0-bandit column mean, a numpy NaN warning rather than an
exception, is modelled as 0).  Threads the function-level `sigma` local in
and out. -/
def banditEpsRun (qstar : ℕ → ℕ → ℚ) (st : BanditStreams)
    (num_bandits num_arms : ℕ) (num_plays : ℤ) (eps : ℚ) (sigma0 : Option ℚ) :
    Except BanditError ((List ℚ × List ℚ) × Option ℚ) :=
  if num_plays < 0 then .error .valueError
  else
    match banditsRun qstar st num_arms num_plays.toNat eps (List.range num_bandits)
        (banditTables0 sigma0) with
    | .error e => .error e
    | .ok tb =>
      .ok (((List.range num_plays.toNat).map
            (fun j => qListMean ((List.range num_bandits).map (fun i => tb.rewards (i, j)))),
           (List.range num_plays.toNat).map
            (fun j => ((List.range num_bandits).map (fun i => tb.optimal_flag (i, j))).sum
              / (num_bandits : ℚ))), tb.sigma)

/-- The `for eps in eps_list` loop, collecting both series per epsilon and
threading `sigma`. -/
def banditEpsFold (qstar : ℕ → ℕ → ℚ) (st : BanditStreams)
    (num_bandits num_arms : ℕ) (num_plays : ℤ) :
    List ℚ → Option ℚ →
    Except BanditError ((List (List ℚ) × List (List ℚ)) × Option ℚ)
  | [], sigma => .ok (([], []), sigma)
  | eps :: rest, sigma =>
    match banditEpsRun qstar st num_bandits num_arms num_plays eps sigma with
    | .error e => .error e
    | .ok (series, sigma') =>
      match banditEpsFold qstar st num_bandits num_arms num_plays rest sigma' with
      | .error e => .error e
      | .ok (out, sigma'') => .ok ((series.1 :: out.1, series.2 :: out.2), sigma'')

/-- Model of `n_armed_bandit(num_bandits, num_arms, num_plays, eps_list)`
(lines 22-122), epilogue included.  Line 41
(`qstar = np.random.normal(0, 1, (num_bandits, num_arms))`) raises
`ValueError` on a negative bandit or arm count before anything else (the
drawn matrix itself is the `qstar` oracle); the counts are Python ints, and
`range(n)` of a non-positive `n` is empty, hence `Int.toNat` inside the
loops.  After the `eps` loop, the plotting epilogue (lines 99-121) formats
the titles at lines 105 and 114 with the local `sigma`; if no play iteration
ever ran, `sigma` is unbound and line 105 raises `UnboundLocalError`, so the
`return` at line 122 is never reached.  Returns `(avg_reward, opt_action)`. -/
def n_armed_bandit (qstar : ℕ → ℕ → ℚ) (st : BanditStreams)
    (num_bandits num_arms num_plays : ℤ) (eps_list : List ℚ) :
    Except BanditError (List (List ℚ) × List (List ℚ)) :=
  if num_bandits < 0 ∨ num_arms < 0 then .error .valueError
  else
    match banditEpsFold qstar st num_bandits.toNat num_arms.toNat num_plays
        eps_list none with
    | .error e => .error e
    | .ok (out, sigma) =>
      match sigma with
      | none => .error .unboundLocalError
      | some _ => .ok out

/-- Whether a run completed without raising. -/
def exceptIsOk {ε α : Type} : Except ε α → Bool
  | .ok _ => true
  | .error _ => false

/-! ## Theorems -/

/-- C5: `get_hand_value` returns the naive sum `Σ min(rank, 10)`, upgraded by
exactly +10 with `usable_ace = true` precisely when the hand holds a rank-1
card and the naive sum is ≤ 11 (so at most one ace is ever upgraded); and on
any 2-card hand containing an ace whose naive sum is ≤ 11 it reports
`usable_ace = true` and a total exactly 10 above the naive sum. -/
theorem c5_hand_value (hand : List ℕ) :
    ((get_hand_value hand).2 = true ↔
      (∃ c ∈ hand, get_standard_card c = 1) ∧ rawSum hand ≤ 11) ∧
    ((get_hand_value hand).1 =
      rawSum hand + (if (get_hand_value hand).2 then 10 else 0)) ∧
    (∀ c₁ c₂ : ℕ, hand = [c₁, c₂] → get_standard_card c₁ = 1 →
      rawSum hand ≤ 11 →
      (get_hand_value hand).2 = true ∧
      (get_hand_value hand).1 = rawSum hand + 10) := by
  have hace : hasAce hand = true ↔ ∃ c ∈ hand, get_standard_card c = 1 := by
    simp [hasAce, get_standard_hand, List.any_map, List.any_eq_true]
  refine ⟨?_, ?_, ?_⟩
  · unfold get_hand_value
    split
    · next h => simpa [hace] using h
    · next h =>
      simp only [Bool.false_eq_true, false_iff]
      intro ⟨h1, h2⟩
      exact h ⟨hace.mpr h1, h2⟩
  · unfold get_hand_value
    split <;> simp
  · intro c₁ c₂ hh h1 h2
    have hin : ∃ c ∈ hand, get_standard_card c = 1 := ⟨c₁, by simp [hh], h1⟩
    unfold get_hand_value
    rw [if_pos ⟨hace.mpr hin, h2⟩]
    simp

/-- Witness for C5 at the concrete 2-card hand `[1, 13]` (ace + king):
naive sum 11, reported value 21 with a usable ace. -/
theorem c5_hand_value_witness :
    (get_hand_value [1, 13]).2 = true ∧ (get_hand_value [1, 13]).1 = rawSum [1, 13] + 10 :=
  (c5_hand_value [1, 13]).2.2 1 13 rfl (by decide) (by decide)

/-- C6: `get_payoff` is −1 on a player bust, +1 on a dealer bust with the
player standing ≤ 21, and otherwise the sign of `player − dealer`; spelled
out at the five concrete inputs of the spec. -/
theorem c6_payoff (p d : ℤ) :
    (21 < p → get_payoff p d = -1) ∧
    (p ≤ 21 → 21 < d → get_payoff p d = 1) ∧
    (p ≤ 21 → d ≤ 21 → (p < d → get_payoff p d = -1) ∧
      (p = d → get_payoff p d = 0) ∧ (d < p → get_payoff p d = 1)) ∧
    (get_payoff 22 18 = -1 ∧ get_payoff 20 22 = 1 ∧ get_payoff 20 20 = 0 ∧
      get_payoff 18 20 = -1 ∧ get_payoff 20 18 = 1) := by
  refine ⟨?_, ?_, ?_, by decide⟩
  · intro h; unfold get_payoff; split_ifs <;> omega
  · intro hp hd; unfold get_payoff; split_ifs <;> omega
  · intro hp hd
    refine ⟨?_, ?_, ?_⟩ <;> (intro h; unfold get_payoff; split_ifs <;> omega)

/-- Witness for C6 at the concrete pair (22, 18): the player-bust clause. -/
theorem c6_payoff_witness : (21 : ℤ) < 22 ∧ get_payoff 22 18 = -1 :=
  ⟨by decide, (c6_payoff 22 18).1 (by decide)⟩

/-- C3: in every simulated episode the dealer draws exactly while its total is
below `min(17, player's final total)`: every total recorded immediately
before a draw is `< min 17 player_value`, the final total is not, and the
hand grew by exactly one card per recorded draw.  (`dealerLoop` is the dealer
loop shared by `run_sequential`, `get_value_simple` and
`get_value_exploring_starts` in this embedding.) -/
theorem c3_dealer_stop (player_value : ℕ) (deck hand h d tr : List ℕ)
    (hok : dealerLoop player_value deck hand = .ok (h, d, tr)) :
    (∀ v ∈ tr, v < min 17 player_value) ∧
    ¬ (get_hand_value h).1 < min 17 player_value ∧
    h.length = hand.length + tr.length := by
  induction deck generalizing hand h d tr with
  | nil =>
    rw [dealerLoop] at hok
    split at hok
    · simp at hok
    · next hcond =>
      simp only [Except.ok.injEq, Prod.mk.injEq] at hok
      obtain ⟨rfl, rfl, rfl⟩ := hok
      exact ⟨by simp, hcond, by simp⟩
  | cons c rest ih =>
    rw [dealerLoop] at hok
    split at hok
    · next hcond =>
      split at hok
      · simp at hok
      · next h' d' tr' hrec =>
        simp only [Except.ok.injEq, Prod.mk.injEq] at hok
        obtain ⟨rfl, rfl, rfl⟩ := hok
        obtain ⟨ih1, ih2, ih3⟩ := ih (hitCard hand c) h' d' tr' hrec
        refine ⟨?_, ih2, ?_⟩
        · intro v hv
          rcases List.mem_cons.mp hv with rfl | hv'
          · exact hcond
          · exact ih1 v hv'
        · simp only [hitCard, List.length_append, List.length_singleton] at ih3
          simp only [List.length_cons]
          omega
    · next hcond =>
      simp only [Except.ok.injEq, Prod.mk.injEq] at hok
      obtain ⟨rfl, rfl, rfl⟩ := hok
      exact ⟨by simp, hcond, by simp⟩

/-- Witness for C3: dealer at 12 against a player total of 20 draws twice
(totals 12 and 16 before the draws, both below 17) and stops at 21. -/
theorem c3_dealer_stop_witness :
    (∀ v ∈ ([12, 16] : List ℕ), v < min 17 20) ∧
    ¬ (get_hand_value [10, 2, 4, 5]).1 < min 17 20 ∧
    ([10, 2, 4, 5] : List ℕ).length = ([10, 2] : List ℕ).length + ([12, 16] : List ℕ).length :=
  c3_dealer_stop 20 [30, 18] [10, 2] [10, 2, 4, 5] [] [12, 16] rfl

/-- C2 is false of the source: `get_value_simple` applies no forced-hit loop
and stores the *initial* two-card state unconditionally, so with threshold 17
and one episode on `c2deck` (player dealt ranks 2,2) the returned table
contains the key `(4, 10, false)` with player value 4 < 12. -/
theorem c2_counterexample :
    (match get_value_simple (fun _ => c2deck) 1 17 with
      | .ok d => d.any (fun e => decide (e.1.1 < 12))
      | .error _ => false) = true := by decide

/-- C2 amended: the `< 12` filter lives in `split_filter_average`, not in
`get_value_simple`: every key of the no-usable-ace table produced by
`split_filter_average` has player value above 11 (and its flag false). -/
theorem c2_amended_filter (value_dict : List ((ℕ × ℕ × Bool) × List ℤ))
    (k : ℕ × ℕ × Bool)
    (hk : k ∈ (split_filter_average value_dict).2.map Prod.fst) :
    11 < k.1 ∧ k.2.2 = false := by
  simp only [split_filter_average, List.map_map, List.mem_map, List.mem_filter,
    Function.comp, decide_eq_true_eq] at hk
  obtain ⟨e, ⟨-, h1, h2⟩, rfl⟩ := hk
  exact ⟨h2, h1⟩

/-- Witness for the amended C2 at a concrete two-entry table. -/
theorem c2_amended_filter_witness :
    11 < (15, 10, false).1 ∧ ((15, 10, false) : ℕ × ℕ × Bool).2.2 = false :=
  c2_amended_filter [((4, 10, false), [1]), ((15, 10, false), [1])] (15, 10, false)
    (by decide)

/-- C8: fixed-policy evaluation is deterministic: all randomness is the
seed-determined stream of shuffled decks, so two runs of
`get_value_simple` over equal deck streams (same seed) with 1000 episodes and
threshold 17 return identical value tables. -/
theorem c8_determinism (decks₁ decks₂ : ℕ → List ℕ) (h : decks₁ = decks₂) :
    get_value_simple decks₁ 1000 17 = get_value_simple decks₂ 1000 17 := by
  rw [h]

/-- Witness for C8: two runs over the same concrete deck stream agree. -/
theorem c8_determinism_witness :
    get_value_simple (fun _ => c2deck) 1000 17 =
      get_value_simple (fun _ => c2deck) 1000 17 :=
  c8_determinism (fun _ => c2deck) (fun _ => c2deck) rfl

/-- Adding one observation to a running sum-and-count mean equals the
spec's incremental update (helper). -/
theorem mean_step (S r : ℚ) (n : ℕ) (h : n = 0 → S = 0) :
    (S + r) / ((n : ℚ) + 1) = S / (n : ℚ) + (r - S / (n : ℚ)) / ((n : ℚ) + 1) := by
  rcases Nat.eq_zero_or_pos n with hn | hn
  · subst hn; rw [h rfl]; norm_num
  · have h1 : (n : ℚ) ≠ 0 := Nat.cast_ne_zero.mpr (Nat.pos_iff_ne_zero.mp hn)
    have h2 : (n : ℚ) + 1 ≠ 0 := by positivity
    field_simp
    ring

/-- C7: every value-table entry is the mean of its observed returns, and the
full-list mean coincides with the incremental rule
`new_mean = old_mean + (return − old_mean) / new_count`: the credit-step
update of lines 507-509 stores exactly `mean(list ++ [payoff])`, which equals
the incremental update of the previous mean; and the bandit estimate
`q_aggregated / q_counter` of lines 77-81 equals the mean of the rewards seen
at that arm, again matching the incremental rule. -/
theorem c7_running_mean (l : List ℤ) (r : ℤ) (rewards : List ℚ) (x : ℚ) :
    (blackjackUpdatePair l r).2 = listMean (l ++ [r]) ∧
    listMean (l ++ [r]) = incMean (listMean l) (r : ℚ) (l.length + 1) ∧
    (banditUpdate (rewards.length : ℚ) rewards.sum x).2.2 = qListMean (rewards ++ [x]) ∧
    qListMean (rewards ++ [x]) = incMean (qListMean rewards) x (rewards.length + 1) := by
  have hq : rewards.length = 0 → rewards.sum = 0 := by
    intro h0
    rw [List.length_eq_zero] at h0
    simp [h0]
  refine ⟨rfl, ?_, ?_, ?_⟩
  · unfold listMean incMean
    simp only [List.sum_append, List.length_append, List.sum_cons, List.sum_nil,
      List.length_cons, List.length_nil, add_zero]
    push_cast
    exact mean_step _ _ _ (by
      intro h0
      rw [List.length_eq_zero] at h0
      simp [h0])
  · unfold banditUpdate qListMean
    simp only [List.sum_append, List.length_append, List.sum_cons, List.sum_nil,
      List.length_cons, List.length_nil, add_zero]
    push_cast
    ring
  · unfold qListMean incMean
    simp only [List.sum_append, List.length_append, List.sum_cons, List.sum_nil,
      List.length_cons, List.length_nil, add_zero]
    push_cast
    exact mean_step _ _ _ hq

/-- The two greedy-action computations of lines 511-523 agree (helper). -/
theorem scanMax_eq_directMax (q0 q1 : ℚ) :
    scanMaxAction q0 q1 = directMaxAction q0 q1 := by
  unfold scanMaxAction directMaxAction
  rcases le_or_lt q1 q0 with h | h
  · rw [max_eq_left h]
    simp [h]
  · rw [max_eq_right h.le, if_neg (ne_of_lt h), if_neg (not_le.mpr h)]

/-- Updated key reads back the new value (helper). -/
theorem oupdate_self {K V : Type} [DecidableEq K] (f : K → Option V) (k : K) (v : V) :
    oupdate f k v k = some v := by
  simp [oupdate]

/-- Untouched keys are unchanged by an update (helper). -/
theorem oupdate_ne {K V : Type} [DecidableEq K] (f : K → Option V) (k x : K) (v : V)
    (h : x ≠ k) : oupdate f k v x = f x := by
  simp [oupdate, h]

/-- C4: the greedy action obtained by scanning the state's two action values
for the first maximum always equals the direct comparison with ties favouring
stick, so the `assert max_action2 == max_action1` of line 525 never fires,
and the policy entry is set to that argmax. -/
theorem c4_greedy_assert :
    (∀ q0 q1 : ℚ, scanMaxAction q0 q1 = directMaxAction q0 q1) ∧
    (∀ (payoff : ℤ) (d : ESDicts) (s : BJState),
      creditStep payoff d s ≠ Except.error RunError.assertError) ∧
    (∀ (payoff : ℤ) (d : ESDicts) (s : BJState) (d' : ESDicts),
      creditStep payoff d s = Except.ok d' → s.1 ≤ 21 →
      ∃ q0 q1, d'.Qa (s, 0) = some q0 ∧ d'.Qa (s, 1) = some q1 ∧
        d'.policy s = some (directMaxAction q0 q1)) := by
  refine ⟨scanMax_eq_directMax, ?_, ?_⟩
  · intro payoff d s h
    unfold creditStep at h
    split at h
    · split at h
      · simp at h
      · split at h
        · simp at h
        · split at h
          · rw [if_pos (scanMax_eq_directMax _ _)] at h
            simp at h
          · simp at h
    · simp at h
  · intro payoff d s d' hok hle
    unfold creditStep at hok
    rw [if_pos hle] at hok
    split at hok
    · simp at hok
    · split at hok
      · simp at hok
      · split at hok
        · next q0 q1 h0 h1 =>
          rw [if_pos (scanMax_eq_directMax _ _)] at hok
          simp only [Except.ok.injEq] at hok
          subst hok
          exact ⟨q0, q1, h0, h1, oupdate_self _ _ _⟩
        · simp at hok

/-- Completed runs are `ok` on something (helper). -/
theorem exists_ok_of_isOk {ε α : Type} (e : Except ε α) (h : exceptIsOk e = true) :
    ∃ x, e = Except.ok x := by
  cases e with
  | ok x => exact ⟨x, rfl⟩
  | error _ => simp [exceptIsOk] at h

/-- Witness for C4 at the concrete state (12, 1, false) on the freshly
initialised tables with payoff 1. -/
theorem c4_greedy_assert_witness :
    scanMaxAction 1 0 = directMaxAction 1 0 ∧
    creditStep 1 initDicts (12, 1, false) ≠ Except.error RunError.assertError ∧
    (∃ d' q0 q1, creditStep 1 initDicts (12, 1, false) = Except.ok d' ∧
      d'.Qa ((12, 1, false), 0) = some q0 ∧ d'.Qa ((12, 1, false), 1) = some q1 ∧
      d'.policy (12, 1, false) = some (directMaxAction q0 q1)) := by
  obtain ⟨d', hd'⟩ :=
    exists_ok_of_isOk (creditStep 1 initDicts (12, 1, false)) (by with_unfolding_all rfl)
  obtain ⟨q0, q1, h0, h1, h2⟩ :=
    c4_greedy_assert.2.2 1 initDicts (12, 1, false) d' hd' (by decide)
  exact ⟨c4_greedy_assert.1 1 0, c4_greedy_assert.2.1 1 initDicts (12, 1, false),
    d', q0, q1, hd', h0, h1, h2⟩

/-- A failing bandit play is a numpy `ValueError`, never a configuration
check (helper). -/
theorem banditPlayStep_error (qstar : ℕ → ℕ → ℚ) (st : BanditStreams)
    (na np : ℕ) (eps : ℚ) (i : ℕ) (tb : BanditTables) (j : ℕ) (e : BanditError)
    (h : banditPlayStep qstar st na np eps i tb j = .error e) : e = .valueError := by
  unfold banditPlayStep at h
  split at h
  · simp only [Except.error.injEq] at h
    exact h.symm
  · simp at h

/-- Errors of the play loop are `ValueError`s (helper). -/
theorem banditPlaysRun_error (qstar : ℕ → ℕ → ℚ) (st : BanditStreams)
    (na np : ℕ) (eps : ℚ) (i : ℕ) (js : List ℕ) :
    ∀ (tb : BanditTables) (e : BanditError),
      banditPlaysRun qstar st na np eps i js tb = .error e → e = .valueError := by
  induction js with
  | nil => intro tb e h; simp [banditPlaysRun] at h
  | cons j rest ih =>
    intro tb e h
    rw [banditPlaysRun] at h
    split at h
    · next e' he' =>
      simp only [Except.error.injEq] at h
      exact h ▸ banditPlayStep_error qstar st na np eps i tb j e' he'
    · next tb' _ => exact ih tb' e h

/-- Errors of the bandit loop are `ValueError`s (helper). -/
theorem banditsRun_error (qstar : ℕ → ℕ → ℚ) (st : BanditStreams)
    (na np : ℕ) (eps : ℚ) (is : List ℕ) :
    ∀ (tb : BanditTables) (e : BanditError),
      banditsRun qstar st na np eps is tb = .error e → e = .valueError := by
  induction is with
  | nil => intro tb e h; simp [banditsRun] at h
  | cons i rest ih =>
    intro tb e h
    rw [banditsRun] at h
    split at h
    · next e' he' =>
      simp only [Except.error.injEq] at h
      exact h ▸ banditPlaysRun_error qstar st na np eps i (List.range np) tb e' he'
    · next tb' _ => exact ih tb' e h

/-- Errors of a whole `eps` iteration are `ValueError`s (helper). -/
theorem banditEpsRun_error (qstar : ℕ → ℕ → ℚ) (st : BanditStreams)
    (nb na : ℕ) (np : ℤ) (eps : ℚ) (sigma0 : Option ℚ) (e : BanditError)
    (h : banditEpsRun qstar st nb na np eps sigma0 = .error e) : e = .valueError := by
  unfold banditEpsRun at h
  split at h
  · simp only [Except.error.injEq] at h
    exact h.symm
  · split at h
    · next e' he' =>
      simp only [Except.error.injEq] at h
      exact h ▸ banditsRun_error qstar st na np.toNat eps (List.range nb)
        (banditTables0 sigma0) e' he'
    · simp at h

/-- Errors of the whole epsilon fold are `ValueError`s (helper). -/
theorem banditEpsFold_error (qstar : ℕ → ℕ → ℚ) (st : BanditStreams)
    (nb na : ℕ) (np : ℤ) (eps_list : List ℚ) :
    ∀ (sigma0 : Option ℚ) (e : BanditError),
      banditEpsFold qstar st nb na np eps_list sigma0 = .error e →
      e = .valueError := by
  induction eps_list with
  | nil => intro sigma0 e h; simp [banditEpsFold] at h
  | cons eps rest ih =>
    intro sigma0 e h
    rw [banditEpsFold] at h
    split at h
    · next e' he' =>
      simp only [Except.error.injEq] at h
      exact h ▸ banditEpsRun_error qstar st nb na np eps sigma0 e' he'
    · next series sigma' hrun =>
      split at h
      · next e' he' =>
        simp only [Except.error.injEq] at h
        exact h ▸ ih sigma' e' he'
      · simp at h

/-- With no plays the bandit loop returns its tables untouched (helper). -/
theorem banditsRun_zero_plays (qstar : ℕ → ℕ → ℚ) (st : BanditStreams)
    (na : ℕ) (eps : ℚ) (is : List ℕ) :
    ∀ tb : BanditTables, banditsRun qstar st na 0 eps is tb = .ok tb := by
  induction is with
  | nil => intro tb; rfl
  | cons i rest ih =>
    intro tb
    rw [banditsRun]
    simp only [List.range_zero]
    rw [banditPlaysRun]
    exact ih tb

/-- With a zero play count the whole epsilon fold completes with `sigma`
still carrying its incoming value: no play iteration ever assigns it
(helper). -/
theorem banditEpsFold_zero_plays (qstar : ℕ → ℕ → ℚ) (st : BanditStreams)
    (nb na : ℕ) (eps_list : List ℚ) :
    ∀ sigma0 : Option ℚ, ∃ out,
      banditEpsFold qstar st nb na 0 eps_list sigma0 = .ok (out, sigma0) := by
  induction eps_list with
  | nil => intro sigma0; exact ⟨([], []), rfl⟩
  | cons eps rest ih =>
    intro sigma0
    obtain ⟨out, hout⟩ := ih sigma0
    have hrun : banditEpsRun qstar st nb na 0 eps sigma0 = .ok (([], []), sigma0) := by
      unfold banditEpsRun
      rw [if_neg (by omega)]
      simp only [Int.toNat_zero]
      rw [banditsRun_zero_plays]
      rfl
    refine ⟨([] :: out.1, [] :: out.2), ?_⟩
    rw [banditEpsFold]
    split
    · next e he =>
      rw [hrun] at he
      simp at he
    · next series sigma' hrun2 =>
      rw [hrun] at hrun2
      simp only [Except.ok.injEq, Prod.mk.injEq] at hrun2
      obtain ⟨hser, hsig⟩ := hrun2
      subst hser
      subst hsig
      split
      · next e he =>
        rw [hout] at he
        simp at he
      · next o sigma'' hfold =>
        rw [hout] at hfold
        simp only [Except.ok.injEq, Prod.mk.injEq] at hfold
        obtain ⟨ho, hsig'⟩ := hfold
        subst ho
        subst hsig'
        rfl

/-- C9 is false of the source: neither entry point validates its
configuration, and an invalid configuration does not fail fast with an
`InvalidConfiguration` error before simulation.  With the invalid play
count 0 (a non-positive episode count), `n_armed_bandit` runs its (empty)
simulation loops and then raises `UnboundLocalError` in the plotting
epilogue at line 105, where the title formatting references `sigma`, a
local assigned only inside the play loop that never ran. -/
theorem c9_counterexample :
    n_armed_bandit (fun _ _ => 0) ⟨fun _ => 0, fun _ => 0, fun _ => 0⟩
      2 10 0 [0] = Except.error BanditError.unboundLocalError := by
  rfl

/-- C9 amended: the entry points perform no configuration validation:
no run of `n_armed_bandit` ever produces an `InvalidConfiguration` error.
Invalid configurations fail, if at all, with unrelated errors at unrelated
points: a negative bandit or arm count raises numpy's `ValueError` when the
true-reward matrix is drawn (line 41), and a run with a non-positive play
count never completes normally — it either raises that `ValueError`, or
`ValueError` at the per-epsilon array allocation (line 50), or
`UnboundLocalError` at the title formatting (line 105) after the simulation
loops, because `sigma` is assigned only inside the play loop. -/
theorem c9_amended_no_validation :
    (∀ (qstar : ℕ → ℕ → ℚ) (st : BanditStreams) (nb na np : ℤ) (eps_list : List ℚ),
      n_armed_bandit qstar st nb na np eps_list ≠
        Except.error BanditError.invalidConfiguration) ∧
    (∀ (qstar : ℕ → ℕ → ℚ) (st : BanditStreams) (nb na np : ℤ) (eps_list : List ℚ),
      nb < 0 ∨ na < 0 →
      n_armed_bandit qstar st nb na np eps_list =
        Except.error BanditError.valueError) ∧
    (∀ (qstar : ℕ → ℕ → ℚ) (st : BanditStreams) (nb na : ℤ) (eps_list : List ℚ)
      (np : ℤ), np ≤ 0 →
      exceptIsOk (n_armed_bandit qstar st nb na np eps_list) = false) := by
  refine ⟨?_, ?_, ?_⟩
  · intro qstar st nb na np eps_list h
    unfold n_armed_bandit at h
    split at h
    · simp at h
    · split at h
      · next e he =>
        simp only [Except.error.injEq] at h
        exact absurd (h ▸ banditEpsFold_error qstar st nb.toNat na.toNat np
          eps_list none e he) (by simp)
      · split at h
        · simp at h
        · simp at h
  · intro qstar st nb na np eps_list hneg
    unfold n_armed_bandit
    rw [if_pos hneg]
  · intro qstar st nb na eps_list np hnp
    unfold n_armed_bandit
    split
    · rfl
    · rcases lt_or_eq_of_le hnp with hlt | heq
      · cases eps_list with
        | nil => rfl
        | cons eps rest =>
          have hrun : banditEpsRun qstar st nb.toNat na.toNat np eps none =
              .error .valueError := by
            unfold banditEpsRun
            rw [if_pos hlt]
          rw [banditEpsFold, hrun]
          rfl
      · subst heq
        obtain ⟨out, hout⟩ :=
          banditEpsFold_zero_plays qstar st nb.toNat na.toNat eps_list none
        rw [hout]
        rfl

/-- Ranks lie in [1, 13] (helper). -/
theorem get_standard_card_bounds (c : ℕ) :
    1 ≤ get_standard_card c ∧ get_standard_card c ≤ 13 := by
  unfold get_standard_card
  have : (c - 1) % 13 < 13 := Nat.mod_lt _ (by norm_num)
  omega

/-- Standardising is idempotent (helper). -/
theorem get_standard_card_idem (c : ℕ) :
    get_standard_card (get_standard_card c) = get_standard_card c := by
  unfold get_standard_card
  have : (c - 1) % 13 < 13 := Nat.mod_lt _ (by norm_num)
  omega

/-- Card values lie in [1, 10] (helper). -/
theorem cardValue_bounds (c : ℕ) :
    1 ≤ cardValue (get_standard_card c) ∧ cardValue (get_standard_card c) ≤ 10 := by
  obtain ⟨h1, h2⟩ := get_standard_card_bounds c
  unfold cardValue
  omega

/-- Naive sum over a one-card extension (helper). -/
theorem rawSum_hitCard (h : List ℕ) (c : ℕ) :
    rawSum (hitCard h c) = rawSum h + cardValue (get_standard_card c) := by
  unfold hitCard rawSum get_standard_hand
  simp [get_standard_card_idem]

/-- Ace flag over a one-card extension (helper). -/
theorem hasAce_hitCard (h : List ℕ) (c : ℕ) :
    hasAce (hitCard h c) = (hasAce h || decide (get_standard_card c = 1)) := by
  unfold hitCard hasAce get_standard_hand
  simp [get_standard_card_idem]

/-- Naive sum of a cons (helper). -/
theorem rawSum_cons (c : ℕ) (t : List ℕ) :
    rawSum (c :: t) = cardValue (get_standard_card c) + rawSum t := by
  unfold rawSum get_standard_hand
  simp

/-- The hand value is at least the naive sum (helper). -/
theorem value_ge_rawSum (h : List ℕ) : rawSum h ≤ (get_hand_value h).1 := by
  unfold get_hand_value
  split <;> simp

/-- A usable-ace hand totals at most 21 and exactly naive+10 (helper). -/
theorem usable_raw (h : List ℕ) (hu : (get_hand_value h).2 = true) :
    rawSum h ≤ 11 ∧ (get_hand_value h).1 = rawSum h + 10 ∧ hasAce h = true := by
  unfold get_hand_value at hu ⊢
  split at hu
  · next hc =>
    refine ⟨hc.2, ?_, hc.1⟩
    rw [if_pos hc]
  · simp at hu

/-- A no-usable-ace hand totals exactly the naive sum (helper). -/
theorem nonusable_value (h : List ℕ) (hu : (get_hand_value h).2 = false) :
    (get_hand_value h).1 = rawSum h := by
  unfold get_hand_value at hu ⊢
  split at hu
  · simp at hu
  · next hc => rw [if_neg hc]

/-- A usable-ace hand totals at most 21 (helper). -/
theorem usable_le21 (h : List ℕ) (hu : (get_hand_value h).2 = true) :
    (get_hand_value h).1 ≤ 21 := by
  obtain ⟨h1, h2, _⟩ := usable_raw h hu
  omega

/-- A hand below 12 has naive sum at most 11 (helper). -/
theorem raw_le_of_low (h : List ℕ) (hv : (get_hand_value h).1 < 12) :
    rawSum h ≤ 11 := by
  have := value_ge_rawSum h
  omega

/-- One hit from a naive sum ≤ 11 cannot exceed 21 (helper). -/
theorem hit_le21 (h : List ℕ) (c : ℕ) (hr : rawSum h ≤ 11) :
    (get_hand_value (hitCard h c)).1 ≤ 21 := by
  have hcv := cardValue_bounds c
  have hraw : rawSum (hitCard h c) ≤ 21 := by rw [rawSum_hitCard]; omega
  unfold get_hand_value
  split
  · next hc =>
    obtain ⟨-, h2⟩ := hc
    show rawSum (hitCard h c) + 10 ≤ 21
    omega
  · show rawSum (hitCard h c) ≤ 21
    omega

/-- A hand of ≤ 2 cards totals at most 21 (helper). -/
theorem twoCard_le21 (l : List ℕ) (hl : l.length ≤ 2) : (get_hand_value l).1 ≤ 21 := by
  have hraw : rawSum l ≤ 20 := by
    match l, hl with
    | [], _ => simp [rawSum, get_standard_hand]
    | [a], _ =>
      have := cardValue_bounds a
      rw [show [a] = a :: [] from rfl, rawSum_cons]
      simp only [rawSum, get_standard_hand, List.map_nil, List.sum_nil]
      omega
    | [a, b], _ =>
      have ha := cardValue_bounds a
      have hb := cardValue_bounds b
      rw [show [a, b] = a :: [b] from rfl, rawSum_cons,
        show [b] = b :: [] from rfl, rawSum_cons]
      simp only [rawSum, get_standard_hand, List.map_nil, List.sum_nil]
      omega
  unfold get_hand_value
  split
  · next hc =>
    obtain ⟨-, h2⟩ := hc
    show rawSum l + 10 ≤ 21
    omega
  · show rawSum l ≤ 21
    omega

/-- Hitting a no-usable-ace hand worth at least 12 keeps the flag false and
strictly increases the total (helper). -/
theorem nonusable_hit (h : List ℕ) (c : ℕ) (hu : (get_hand_value h).2 = false)
    (hv : 12 ≤ (get_hand_value h).1) :
    (get_hand_value (hitCard h c)).2 = false ∧
    (get_hand_value h).1 < (get_hand_value (hitCard h c)).1 := by
  have hval := nonusable_value h hu
  have hcv := cardValue_bounds c
  have hraw' : rawSum (hitCard h c) = rawSum h + cardValue (get_standard_card c) :=
    rawSum_hitCard h c
  have hflag : (get_hand_value (hitCard h c)).2 = false := by
    unfold get_hand_value
    rw [if_neg]
    intro hc
    omega
  refine ⟨hflag, ?_⟩
  rw [nonusable_value _ hflag]
  omega

/-- Hitting from a total of at least 12 keeps the total at least 12
(helper). -/
theorem hit_ge12 (h : List ℕ) (c : ℕ) (hv : 12 ≤ (get_hand_value h).1) :
    12 ≤ (get_hand_value (hitCard h c)).1 := by
  have hcv := cardValue_bounds c
  cases hu : (get_hand_value h).2 with
  | false =>
    have := (nonusable_hit h c hu hv).2
    omega
  | true =>
    obtain ⟨hr, hval, hace⟩ := usable_raw h hu
    have hace' : hasAce (hitCard h c) = true := by
      rw [hasAce_hitCard, hace]; simp
    have hraw' : rawSum (hitCard h c) = rawSum h + cardValue (get_standard_card c) :=
      rawSum_hitCard h c
    cases hu' : (get_hand_value (hitCard h c)).2 with
    | true =>
      obtain ⟨hr', hval', _⟩ := usable_raw _ hu'
      omega
    | false =>
      have hraw12 : ¬ rawSum (hitCard h c) ≤ 11 := by
        intro hle
        have : (get_hand_value (hitCard h c)).2 = true := by
          unfold get_hand_value
          rw [if_pos ⟨hace', hle⟩]
        rw [this] at hu'
        cases hu'
      rw [nonusable_value _ hu']
      omega

/-- Hitting from a total in [12, 21] strictly increases the trajectory
measure `phase` (helper). -/
theorem phase_step (h : List ℕ) (c : ℕ) (cd : ℕ) (hv : 12 ≤ (get_hand_value h).1) :
    phase (get_player_state h cd) < phase (get_player_state (hitCard h c) cd) := by
  have hstate : ∀ (l : List ℕ), phase (get_player_state l cd) =
      (if (get_hand_value l).2 then 0 else 32) + (get_hand_value l).1 := by
    intro l; rfl
  rw [hstate, hstate]
  have h12' := hit_ge12 h c hv
  cases hu : (get_hand_value h).2 with
  | false =>
    obtain ⟨hflag, hlt⟩ := nonusable_hit h c hu hv
    rw [hflag]
    simp only [Bool.false_eq_true, if_false]
    omega
  | true =>
    have hle21 := usable_le21 h hu
    cases hu' : (get_hand_value (hitCard h c)).2 with
    | false => simp only [Bool.false_eq_true, if_false, if_true]; omega
    | true =>
      obtain ⟨hr, hval, hace⟩ := usable_raw h hu
      obtain ⟨hr', hval', _⟩ := usable_raw _ hu'
      have hcv := cardValue_bounds c
      have hraw' := rawSum_hitCard h c
      simp only [if_true]
      omega

/-- What a successful deal guarantees: a two-card player hand and an upcard
in [1, 13] (helper). -/
theorem deal_spec (deck : List ℕ) (hp hd : List ℕ) (cd : ℕ) (deck' : List ℕ)
    (h : deal deck = .ok (hp, hd, cd, deck')) :
    hp.length ≤ 2 ∧ 1 ≤ cd ∧ cd ≤ 13 := by
  unfold deal at h
  split at h
  · simp at h
  · next cd' hcd =>
    simp only [Except.ok.injEq, Prod.mk.injEq] at h
    obtain ⟨rfl, -, rfl, -⟩ := h
    constructor
    · unfold get_standard_hand
      simp only [List.length_map, List.length_take]
      omega
    · unfold get_standard_hand at hcd
      rw [List.head?_map] at hcd
      cases hx : ((deck.drop 2).take 2).head? with
      | none => rw [hx] at hcd; simp at hcd
      | some x =>
        rw [hx] at hcd
        simp at hcd
        rw [← hcd]
        exact get_standard_card_bounds x

/-- After the forced-hit loop the player total lies in [12, 21] (helper). -/
theorem forcedHits_spec (deck : List ℕ) :
    ∀ (hand h d : List ℕ), (get_hand_value hand).1 ≤ 21 →
      forcedHits deck hand = .ok (h, d) →
      12 ≤ (get_hand_value h).1 ∧ (get_hand_value h).1 ≤ 21 := by
  induction deck with
  | nil =>
    intro hand h d hle hok
    rw [forcedHits] at hok
    split at hok
    · simp at hok
    · next hcond =>
      simp only [Except.ok.injEq, Prod.mk.injEq] at hok
      obtain ⟨rfl, -⟩ := hok
      omega
  | cons c rest ih =>
    intro hand h d hle hok
    rw [forcedHits] at hok
    split at hok
    · next hcond =>
      exact ih (hitCard hand c) h d (hit_le21 hand c (raw_le_of_low hand hcond)) hok
    · next hcond =>
      simp only [Except.ok.injEq, Prod.mk.injEq] at hok
      obtain ⟨rfl, -⟩ := hok
      omega

/-- The forced-hit loop only raises on deck exhaustion (helper). -/
theorem forcedHits_error (deck : List ℕ) :
    ∀ (hand : List ℕ) (e : RunError),
      forcedHits deck hand = .error e → e = .deckEmpty := by
  induction deck with
  | nil =>
    intro hand e h
    rw [forcedHits] at h
    split at h
    · simp only [Except.error.injEq] at h
      exact h.symm
    · simp at h
  | cons c rest ih =>
    intro hand e h
    rw [forcedHits] at h
    split at h
    · exact ih (hitCard hand c) e h
    · simp at h

/-- The dealer loop only raises on deck exhaustion (helper). -/
theorem dealerLoop_error (pv : ℕ) (deck : List ℕ) :
    ∀ (hand : List ℕ) (e : RunError),
      dealerLoop pv deck hand = .error e → e = .deckEmpty := by
  induction deck with
  | nil =>
    intro hand e h
    rw [dealerLoop] at h
    split at h
    · simp only [Except.error.injEq] at h
      exact h.symm
    · simp at h
  | cons c rest ih =>
    intro hand e h
    rw [dealerLoop] at h
    split at h
    · split at h
      · next e' he' =>
        simp only [Except.error.injEq] at h
        exact h ▸ ih (hitCard hand c) e' he'
      · simp at h
    · simp at h

/-- A failing deal is a deck underflow (helper). -/
theorem deal_error (deck : List ℕ) (e : RunError) (h : deal deck = .error e) :
    e = .deckEmpty := by
  unfold deal at h
  split at h
  · simp only [Except.error.injEq] at h
    exact h.symm
  · simp at h

/-- A strictly `phase`-increasing trajectory has pairwise distinct states
(helper). -/
theorem chain_phase_pairwise_ne (l : List BJState)
    (h : List.Chain' (fun a b => phase a < phase b) l) :
    l.Pairwise (fun a b => a ≠ b) := by
  haveI : IsTrans BJState (fun a b => phase a < phase b) := ⟨fun _ _ _ => Nat.lt_trans⟩
  refine (List.chain'_iff_pairwise.mp h).imp ?_
  intro a b hab heq
  subst heq
  exact lt_irrefl _ hab

/-- Full specification of the exploring-starts player loop (helper): every
recorded pair holds a valid state (total in [12, 21], upcard in [1, 13])
together with the action the policy prescribed there, the optional trailing
state is busted, the visited states are strictly `phase`-increasing from the
entry state, and the final hand still totals at least 12. -/
theorem playerLoop_spec (policy : BJState → Option ℕ) (cd : ℕ)
    (hcd1 : 1 ≤ cd) (hcd13 : cd ≤ 13) (deck : List ℕ) :
    ∀ (hand : List ℕ) (act : ℕ) (ps : List (BJState × ℕ)) (bust : Option BJState)
      (h : List ℕ) (dk : List ℕ),
      12 ≤ (get_hand_value hand).1 →
      playerLoop policy cd deck hand act = .ok (ps, bust, h, dk) →
      (∀ p ∈ ps, p.1.1 ≤ 21 ∧ validState p.1 ∧ policy p.1 = some p.2) ∧
      (∀ s ∈ bust.toList, 21 < s.1) ∧
      List.Chain' (fun a b => phase a < phase b)
        (get_player_state hand cd :: (ps.map Prod.fst ++ bust.toList)) ∧
      12 ≤ (get_hand_value h).1 := by
  induction deck with
  | nil =>
    intro hand act ps bust h dk h12 hok
    rw [playerLoop] at hok
    split at hok
    · simp at hok
    · simp only [Except.ok.injEq, Prod.mk.injEq] at hok
      obtain ⟨rfl, rfl, rfl, rfl⟩ := hok
      exact ⟨by simp, by simp, by simp, h12⟩
  | cons c rest ih =>
    intro hand act ps bust h dk h12 hok
    rw [playerLoop] at hok
    split at hok
    · split at hok
      · next hst =>
        split at hok
        · simp at hok
        · next a ha =>
          split at hok
          · simp at hok
          · next ps' bust' h' dk' hrec =>
            simp only [Except.ok.injEq, Prod.mk.injEq] at hok
            obtain ⟨rfl, rfl, rfl, rfl⟩ := hok
            have h12' : 12 ≤ (get_hand_value (hitCard hand c)).1 := hit_ge12 hand c h12
            obtain ⟨ih1, ih2, ih3, ih4⟩ := ih (hitCard hand c) a ps' bust' h' dk' h12' hrec
            refine ⟨?_, ih2, ?_, ih4⟩
            · intro p hp
              rcases List.mem_cons.mp hp with rfl | hp'
              · exact ⟨hst, ⟨h12', hst, hcd1, hcd13⟩, ha⟩
              · exact ih1 p hp'
            · simp only [List.map_cons, List.cons_append]
              exact List.chain'_cons.mpr ⟨phase_step hand c cd h12, ih3⟩
      · next hst =>
        simp only [Except.ok.injEq, Prod.mk.injEq] at hok
        obtain ⟨rfl, rfl, rfl, rfl⟩ := hok
        refine ⟨by simp, ?_, ?_, hit_ge12 hand c h12⟩
        · intro s hs
          simp only [Option.toList_some, List.mem_singleton] at hs
          subst hs
          exact not_le.mp hst
        · simp only [List.map_nil, List.nil_append, Option.toList_some]
          exact List.chain'_pair.mpr (phase_step hand c cd h12)
    · simp only [Except.ok.injEq, Prod.mk.injEq] at hok
      obtain ⟨rfl, rfl, rfl, rfl⟩ := hok
      exact ⟨by simp, by simp, by simp, h12⟩

/-- The exploring-starts player loop never misses a policy key; its only
error is deck exhaustion (helper). -/
theorem playerLoop_error (policy : BJState → Option ℕ) (cd : ℕ)
    (hpol : ∀ s, validState s → (policy s).isSome)
    (hcd1 : 1 ≤ cd) (hcd13 : cd ≤ 13) (deck : List ℕ) :
    ∀ (hand : List ℕ) (act : ℕ) (e : RunError),
      12 ≤ (get_hand_value hand).1 →
      playerLoop policy cd deck hand act = .error e → e = .deckEmpty := by
  induction deck with
  | nil =>
    intro hand act e h12 h
    rw [playerLoop] at h
    split at h
    · simp only [Except.error.injEq] at h
      exact h.symm
    · simp at h
  | cons c rest ih =>
    intro hand act e h12 h
    rw [playerLoop] at h
    split at h
    · split at h
      · next hst =>
        split at h
        · next hnone =>
          have hv : validState (get_player_state (hitCard hand c) cd) :=
            ⟨hit_ge12 hand c h12, hst, hcd1, hcd13⟩
          have := hpol _ hv
          rw [hnone] at this
          simp at this
        · next a ha =>
          split at h
          · next e' he' =>
            simp only [Except.error.injEq] at h
            exact h ▸ ih (hitCard hand c) a e' (hit_ge12 hand c h12) he'
          · simp at h
      · simp at h
    · simp at h

/-- A credit step touches no key of another state (helper). -/
theorem creditStep_frame (payoff : ℤ) (d : ESDicts) (s : BJState) (d' : ESDicts)
    (hok : creditStep payoff d s = .ok d') :
    ∀ s', s' ≠ s → d'.policy s' = d.policy s' ∧
      ∀ a, d'.Qd (s', a) = d.Qd (s', a) ∧ d'.Qa (s', a) = d.Qa (s', a) := by
  unfold creditStep at hok
  split at hok
  · split at hok
    · simp at hok
    · next action ha =>
      split at hok
      · simp at hok
      · next l hl =>
        split at hok
        · next q0 q1 h0 h1 =>
          rw [if_pos (scanMax_eq_directMax _ _)] at hok
          simp only [Except.ok.injEq] at hok
          subst hok
          intro s' hs'
          have hkey : ∀ a : ℕ, ((s', a) : BJState × ℕ) ≠ (s, action) := by
            intro a hh
            exact hs' (congrArg Prod.fst hh)
          exact ⟨oupdate_ne _ _ _ _ hs',
            fun a => ⟨oupdate_ne _ _ _ _ (hkey a), oupdate_ne _ _ _ _ (hkey a)⟩⟩
        · simp at hok
  · simp only [Except.ok.injEq] at hok
    subst hok
    exact fun s' _ => ⟨rfl, fun a => ⟨rfl, rfl⟩⟩

/-- The greedy argmax is an action below 2 (helper). -/
theorem directMaxAction_lt (q0 q1 : ℚ) : directMaxAction q0 q1 < 2 := by
  unfold directMaxAction
  split <;> norm_num

/-- A credit step on a valid non-busted state succeeds, preserves the table
invariant, and appends the payoff / recomputes the mean at the policy's
(state, action) key (helper). -/
theorem creditStep_ok (payoff : ℤ) (d : ESDicts) (s : BJState)
    (hval : validState s) (hinv : ESInv d) (hle : s.1 ≤ 21) :
    ∃ d', creditStep payoff d s = .ok d' ∧ ESInv d' ∧
      (∀ a l, d.policy s = some a → d.Qd (s, a) = some l →
        d'.Qd (s, a) = some (l ++ [payoff]) ∧
        d'.Qa (s, a) = some (listMean (l ++ [payoff]))) := by
  obtain ⟨hp1, hp2, hq1, hq2⟩ := hinv
  obtain ⟨action, ha⟩ := Option.isSome_iff_exists.mp (hp1 s hval)
  have hav : action < 2 := hp2 s action ha
  obtain ⟨l, hl⟩ := Option.isSome_iff_exists.mp (hq1 s action hval hav)
  obtain ⟨q0, h0⟩ : ∃ q0,
      oupdate d.Qa (s, action) (blackjackUpdatePair l payoff).2 (s, 0) = some q0 := by
    by_cases h : ((s, 0) : BJState × ℕ) = (s, action)
    · rw [h, oupdate_self]
      exact ⟨_, rfl⟩
    · rw [oupdate_ne _ _ _ _ h]
      exact Option.isSome_iff_exists.mp (hq2 s 0 hval (by norm_num))
  obtain ⟨q1, h1⟩ : ∃ q1,
      oupdate d.Qa (s, action) (blackjackUpdatePair l payoff).2 (s, 1) = some q1 := by
    by_cases h : ((s, 1) : BJState × ℕ) = (s, action)
    · rw [h, oupdate_self]
      exact ⟨_, rfl⟩
    · rw [oupdate_ne _ _ _ _ h]
      exact Option.isSome_iff_exists.mp (hq2 s 1 hval (by norm_num))
  refine ⟨⟨oupdate d.policy s (directMaxAction q0 q1),
    oupdate d.Qd (s, action) (blackjackUpdatePair l payoff).1,
    oupdate d.Qa (s, action) (blackjackUpdatePair l payoff).2⟩, ?_, ?_, ?_⟩
  · unfold creditStep
    rw [if_pos hle]
    simp only [ha, hl, h0, h1]
    rw [if_pos (scanMax_eq_directMax _ _)]
  · refine ⟨?_, ?_, ?_, ?_⟩
    · intro s' hs'
      show (oupdate d.policy s (directMaxAction q0 q1) s').isSome = true
      by_cases h : s' = s
      · rw [h, oupdate_self]
        rfl
      · rw [oupdate_ne _ _ _ _ h]
        exact hp1 s' hs'
    · intro s' v hv
      have hv' : oupdate d.policy s (directMaxAction q0 q1) s' = some v := hv
      by_cases h : s' = s
      · rw [h, oupdate_self] at hv'
        simp only [Option.some.injEq] at hv'
        exact hv' ▸ directMaxAction_lt q0 q1
      · rw [oupdate_ne _ _ _ _ h] at hv'
        exact hp2 s' v hv'
    · intro s' a' hs' ha'
      show (oupdate d.Qd (s, action) (blackjackUpdatePair l payoff).1 (s', a')).isSome = true
      by_cases h : ((s', a') : BJState × ℕ) = (s, action)
      · rw [h, oupdate_self]
        rfl
      · rw [oupdate_ne _ _ _ _ h]
        exact hq1 s' a' hs' ha'
    · intro s' a' hs' ha'
      show (oupdate d.Qa (s, action) (blackjackUpdatePair l payoff).2 (s', a')).isSome = true
      by_cases h : ((s', a') : BJState × ℕ) = (s, action)
      · rw [h, oupdate_self]
        rfl
      · rw [oupdate_ne _ _ _ _ h]
        exact hq2 s' a' hs' ha'
  · intro a' l' ha' hl'
    rw [ha] at ha'
    simp only [Option.some.injEq] at ha'
    subst ha'
    rw [hl] at hl'
    simp only [Option.some.injEq] at hl'
    subst hl'
    exact ⟨oupdate_self _ _ _, oupdate_self _ _ _⟩

/-- A busted state receives no credit (helper). -/
theorem creditStep_bust (payoff : ℤ) (d : ESDicts) (s : BJState)
    (h : ¬ s.1 ≤ 21) : creditStep payoff d s = .ok d := by
  unfold creditStep
  rw [if_neg h]

/-- Full specification of the credit-assignment loop over a trajectory of
pairwise-distinct states (helper): it succeeds, preserves the invariant,
appends the payoff and recomputes the mean at each non-busted state's policy
key, and leaves every other key — in particular every key of a busted
state — untouched. -/
theorem creditFold_spec (payoff : ℤ) (states : List BJState) :
    ∀ d : ESDicts, ESInv d →
      (∀ s ∈ states, s.1 ≤ 21 → validState s) →
      states.Pairwise (fun a b => a ≠ b) →
      ∃ d', creditFold payoff states d = .ok d' ∧ ESInv d' ∧
        (∀ s ∈ states, ∀ a l, s.1 ≤ 21 → d.policy s = some a → d.Qd (s, a) = some l →
          d'.Qd (s, a) = some (l ++ [payoff]) ∧
          d'.Qa (s, a) = some (listMean (l ++ [payoff]))) ∧
        (∀ s', s' ∉ states → d'.policy s' = d.policy s' ∧
          ∀ a, d'.Qd (s', a) = d.Qd (s', a) ∧ d'.Qa (s', a) = d.Qa (s', a)) ∧
        (∀ s ∈ states, 21 < s.1 → ∀ a, d'.Qd (s, a) = d.Qd (s, a) ∧
          d'.Qa (s, a) = d.Qa (s, a)) := by
  induction states with
  | nil =>
    intro d hinv _ _
    exact ⟨d, rfl, hinv, by simp, fun s' _ => ⟨rfl, fun a => ⟨rfl, rfl⟩⟩, by simp⟩
  | cons s rest ih =>
    intro d hinv hvalid hpw
    have hpw_head : ∀ b ∈ rest, s ≠ b := (List.pairwise_cons.mp hpw).1
    have hpw_rest := (List.pairwise_cons.mp hpw).2
    have hsnotin : s ∉ rest := fun hin => (hpw_head s hin) rfl
    by_cases hle : s.1 ≤ 21
    · obtain ⟨d1, hd1, hinv1, hchar⟩ :=
        creditStep_ok payoff d s (hvalid s (List.mem_cons_self s rest) hle) hinv hle
      obtain ⟨d', hd', hinv', hmain, hframe, hbust⟩ :=
        ih d1 hinv1 (fun s' hs' => hvalid s' (List.mem_cons_of_mem s hs')) hpw_rest
      have hfold : creditFold payoff (s :: rest) d = .ok d' := by
        rw [creditFold, hd1]
        exact hd'
      refine ⟨d', hfold, hinv', ?_, ?_, ?_⟩
      · intro t ht a l htle hta htl
        rcases List.mem_cons.mp ht with rfl | ht'
        · obtain ⟨hQd1, hQa1⟩ := hchar a l hta htl
          obtain ⟨-, hfq⟩ := hframe t hsnotin
          exact ⟨(hfq a).1.trans hQd1, (hfq a).2.trans hQa1⟩
        · have hts : t ≠ s := fun hh => (hpw_head t ht') hh.symm
          obtain ⟨hfp, hfq⟩ := creditStep_frame payoff d s d1 hd1 t hts
          exact hmain t ht' a l htle (hfp.trans hta) ((hfq a).1.trans htl)
      · intro s' hs'
        have hs'1 : s' ≠ s := fun hh => hs' (hh ▸ List.mem_cons_self s rest)
        have hs'2 : s' ∉ rest := fun hh => hs' (List.mem_cons_of_mem s hh)
        obtain ⟨hfp1, hfq1⟩ := creditStep_frame payoff d s d1 hd1 s' hs'1
        obtain ⟨hfp2, hfq2⟩ := hframe s' hs'2
        exact ⟨hfp2.trans hfp1,
          fun a => ⟨(hfq2 a).1.trans (hfq1 a).1, (hfq2 a).2.trans (hfq1 a).2⟩⟩
      · intro t ht h21 a
        rcases List.mem_cons.mp ht with rfl | ht'
        · omega
        · have hts : t ≠ s := fun hh => (hpw_head t ht') hh.symm
          obtain ⟨hfp, hfq⟩ := creditStep_frame payoff d s d1 hd1 t hts
          obtain ⟨hb1, hb2⟩ := hbust t ht' h21 a
          exact ⟨hb1.trans (hfq a).1, hb2.trans (hfq a).2⟩
    · obtain ⟨d', hd', hinv', hmain, hframe, hbust⟩ :=
        ih d hinv (fun s' hs' => hvalid s' (List.mem_cons_of_mem s hs')) hpw_rest
      have hfold : creditFold payoff (s :: rest) d = .ok d' := by
        rw [creditFold, creditStep_bust payoff d s hle]
        exact hd'
      refine ⟨d', hfold, hinv', ?_, ?_, ?_⟩
      · intro t ht a l htle hta htl
        rcases List.mem_cons.mp ht with rfl | ht'
        · exact absurd htle hle
        · exact hmain t ht' a l htle hta htl
      · intro s' hs'
        exact hframe s' (fun hh => hs' (List.mem_cons_of_mem s hh))
      · intro t ht h21 a
        rcases List.mem_cons.mp ht with rfl | ht'
        · exact (hframe t hsnotin).2 a
        · exact hbust t ht' h21 a

/-- The freshly initialised tables satisfy the invariant (helper). -/
theorem ESInv_init : ESInv initDicts := by
  refine ⟨?_, ?_, ?_, ?_⟩
  · intro s hs
    simp [initDicts, policyInit, hs]
  · intro s v h
    simp only [initDicts, policyInit] at h
    split at h
    · simp only [Option.some.injEq] at h
      omega
    · simp at h
  · intro s a hs ha
    simp [initDicts, QdInit, hs, ha]
  · intro s a hs ha
    simp [initDicts, QaInit, hs, ha]

/-- Specification of the credit-assignment stage (helper). -/
theorem esCredit_spec (payoff : ℤ) (states : List BJState)
    (pairs : List (BJState × ℕ)) (d : ESDicts) (hinv : ESInv d)
    (hvalid : ∀ s ∈ states, s.1 ≤ 21 → validState s)
    (hpw : states.Pairwise (fun a b => a ≠ b))
    (hpairs : ∀ p ∈ pairs, p.1 ∈ states ∧ p.1.1 ≤ 21 ∧ d.policy p.1 = some p.2) :
    (∀ e, esCredit payoff states pairs d ≠ .error e) ∧
    (∀ res, esCredit payoff states pairs d = .ok res →
      ESInv res.dicts ∧ res.states = states ∧ res.pairs = pairs ∧
      res.payoff = payoff ∧
      (∀ p ∈ pairs, ∃ l, d.Qd p = some l ∧
        res.dicts.Qd p = some (l ++ [payoff]) ∧
        res.dicts.Qa p = some (listMean (l ++ [payoff]))) ∧
      (∀ s ∈ states, 21 < s.1 → ∀ a, res.dicts.Qd (s, a) = d.Qd (s, a) ∧
        res.dicts.Qa (s, a) = d.Qa (s, a))) := by
  obtain ⟨d', hd', hinv', hmain, hframe, hbust⟩ :=
    creditFold_spec payoff states d hinv hvalid hpw
  constructor
  · intro e h
    unfold esCredit at h
    rw [hd'] at h
    simp at h
  · intro res h
    unfold esCredit at h
    rw [hd'] at h
    simp only [Except.ok.injEq] at h
    subst h
    refine ⟨hinv', rfl, rfl, rfl, ?_, hbust⟩
    intro p hp
    obtain ⟨hmem, hle, hpol⟩ := hpairs p hp
    obtain ⟨l, hl⟩ := Option.isSome_iff_exists.mp
      (hinv.2.2.1 p.1 p.2 (hvalid p.1 hmem hle) (hinv.2.1 p.1 p.2 hpol))
    obtain ⟨h1, h2⟩ := hmain p.1 hmem p.2 l hle hpol hl
    exact ⟨l, hl, h1, h2⟩

/-- Specification of the dealer-and-payoff stage (helper). -/
theorem esDealer_spec (hand_dealer : List ℕ) (player_value : ℕ) (deck3 : List ℕ)
    (states : List BJState) (pairs : List (BJState × ℕ)) (d : ESDicts)
    (hinv : ESInv d)
    (hvalid : ∀ s ∈ states, s.1 ≤ 21 → validState s)
    (hpw : states.Pairwise (fun a b => a ≠ b))
    (hpairs : ∀ p ∈ pairs, p.1 ∈ states ∧ p.1.1 ≤ 21 ∧ d.policy p.1 = some p.2) :
    (∀ e, esDealer hand_dealer player_value deck3 states pairs d = .error e →
      e = .deckEmpty) ∧
    (∀ res, esDealer hand_dealer player_value deck3 states pairs d = .ok res →
      ESInv res.dicts ∧ res.states = states ∧ res.pairs = pairs ∧
      (∀ p ∈ pairs, ∃ l, d.Qd p = some l ∧
        res.dicts.Qd p = some (l ++ [res.payoff]) ∧
        res.dicts.Qa p = some (listMean (l ++ [res.payoff]))) ∧
      (∀ s ∈ states, 21 < s.1 → ∀ a, res.dicts.Qd (s, a) = d.Qd (s, a) ∧
        res.dicts.Qa (s, a) = d.Qa (s, a))) := by
  unfold esDealer
  cases hdl : dealerLoop player_value deck3 hand_dealer with
  | error e =>
    constructor
    · intro e' h
      simp only [Except.error.injEq] at h
      exact h ▸ dealerLoop_error player_value deck3 hand_dealer e hdl
    · intro res h
      simp at h
  | ok r =>
    obtain ⟨hd2, dk, tr⟩ := r
    obtain ⟨hcne, hcok⟩ := esCredit_spec
      (get_payoff player_value (get_hand_value hd2).1) states pairs d
      hinv hvalid hpw hpairs
    constructor
    · intro e h
      exact absurd h (hcne e)
    · intro res h
      obtain ⟨h1, h2, h3, h4, h5, h6⟩ := hcok res h
      exact ⟨h1, h2, h3, by rw [h4]; exact h5, h6⟩

/-- Specification of the exploring-start player stage (helper). -/
theorem esPlayer_spec (d : ESDicts) (esRand : Fin 2) (hand_dealer : List ℕ)
    (card_dealer : ℕ) (hp : List ℕ) (deck2 : List ℕ) (hinv : ESInv d)
    (hcd1 : 1 ≤ card_dealer) (hcd13 : card_dealer ≤ 13)
    (h12 : 12 ≤ (get_hand_value hp).1) (h21 : (get_hand_value hp).1 ≤ 21) :
    (∀ e, esPlayer d esRand hand_dealer card_dealer hp deck2 = .error e →
      e = .deckEmpty) ∧
    (∀ res, esPlayer d esRand hand_dealer card_dealer hp deck2 = .ok res →
      ESInv res.dicts ∧
      (∀ p ∈ res.pairs, p.1.1 ≤ 21 ∧ ∃ l, d.Qd p = some l ∧
        res.dicts.Qd p = some (l ++ [res.payoff]) ∧
        res.dicts.Qa p = some (listMean (l ++ [res.payoff]))) ∧
      res.states.filter (fun s => decide (s.1 ≤ 21)) = res.pairs.map Prod.fst ∧
      (∀ s ∈ res.states, 21 < s.1 → ∀ a, res.dicts.Qd (s, a) = d.Qd (s, a) ∧
        res.dicts.Qa (s, a) = d.Qa (s, a))) := by
  have hpol1 : ∀ s, validState s →
      ((oupdate d.policy (get_player_state hp card_dealer) (esRand : ℕ)) s).isSome := by
    intro s hs
    unfold oupdate
    split
    · rfl
    · exact hinv.1 s hs
  have hpol1v : ∀ s v,
      (oupdate d.policy (get_player_state hp card_dealer) (esRand : ℕ)) s = some v →
      v < 2 := by
    intro s v hv
    unfold oupdate at hv
    split at hv
    · simp only [Option.some.injEq] at hv
      exact hv ▸ esRand.isLt
    · exact hinv.2.1 s v hv
  unfold esPlayer
  cases hplay : playerLoop (oupdate d.policy (get_player_state hp card_dealer) (esRand : ℕ))
      card_dealer deck2 hp (esRand : ℕ) with
  | error e =>
    constructor
    · intro e' h
      simp only [Except.error.injEq] at h
      exact h ▸ playerLoop_error _ card_dealer hpol1 hcd1 hcd13 deck2 hp (esRand : ℕ)
        e h12 hplay
    · intro res h
      simp at h
  | ok r =>
    obtain ⟨ps, bust, hp2, deck3⟩ := r
    obtain ⟨pl1, pl2, pl3, pl4⟩ := playerLoop_spec _ card_dealer hcd1 hcd13 deck2
      hp (esRand : ℕ) ps bust hp2 deck3 h12 hplay
    have hvalid : ∀ s ∈ get_player_state hp card_dealer ::
        (ps.map Prod.fst ++ bust.toList), s.1 ≤ 21 → validState s := by
      intro s hs hsle
      rcases List.mem_cons.mp hs with rfl | hs'
      · exact ⟨h12, h21, hcd1, hcd13⟩
      · rcases List.mem_append.mp hs' with hs'' | hs''
        · obtain ⟨p, hp', rfl⟩ := List.mem_map.mp hs''
          exact (pl1 p hp').2.1
        · exact absurd hsle (not_le.mpr (pl2 s hs''))
    have hpw : (get_player_state hp card_dealer ::
        (ps.map Prod.fst ++ bust.toList)).Pairwise (fun a b => a ≠ b) :=
      chain_phase_pairwise_ne _ pl3
    have hpairs : ∀ p ∈ (get_player_state hp card_dealer, (esRand : ℕ)) :: ps,
        p.1 ∈ get_player_state hp card_dealer :: (ps.map Prod.fst ++ bust.toList) ∧
        p.1.1 ≤ 21 ∧
        (oupdate d.policy (get_player_state hp card_dealer) (esRand : ℕ)) p.1 =
          some p.2 := by
      intro p hp'
      rcases List.mem_cons.mp hp' with rfl | hp''
      · exact ⟨List.mem_cons_self _ _, h21, oupdate_self _ _ _⟩
      · exact ⟨List.mem_cons_of_mem _ (List.mem_append_left _
          (List.mem_map_of_mem Prod.fst hp'')),
          (pl1 p hp'').1, (pl1 p hp'').2.2⟩
    have hfilter : (get_player_state hp card_dealer ::
        (ps.map Prod.fst ++ bust.toList)).filter (fun s => decide (s.1 ≤ 21)) =
        ((get_player_state hp card_dealer, (esRand : ℕ)) :: ps).map Prod.fst := by
      rw [List.filter_cons_of_pos (by simpa using h21), List.filter_append]
      have e1 : (ps.map Prod.fst).filter (fun s => decide (s.1 ≤ 21)) =
          ps.map Prod.fst := by
        refine List.filter_eq_self.mpr ?_
        intro a ha
        obtain ⟨p, hp', rfl⟩ := List.mem_map.mp ha
        simpa using (pl1 p hp').1
      have e2 : bust.toList.filter (fun s => decide (s.1 ≤ 21)) = [] := by
        cases bust with
        | none => rfl
        | some b =>
          have hb := pl2 b (by simp)
          simp [List.filter, not_le.mpr hb]
      rw [e1, e2, List.append_nil]
      simp
    obtain ⟨hdne, hdok⟩ := esDealer_spec hand_dealer (get_hand_value hp2).1 deck3
      (get_player_state hp card_dealer :: (ps.map Prod.fst ++ bust.toList))
      ((get_player_state hp card_dealer, (esRand : ℕ)) :: ps)
      ⟨oupdate d.policy (get_player_state hp card_dealer) (esRand : ℕ), d.Qd, d.Qa⟩
      ⟨hpol1, hpol1v, hinv.2.2.1, hinv.2.2.2⟩ hvalid hpw hpairs
    constructor
    · exact hdne
    · intro res h
      obtain ⟨h1, h2, h3, h4, h5⟩ := hdok res h
      refine ⟨h1, ?_, ?_, ?_⟩
      · intro p hp'
        have hp'' : p ∈ (get_player_state hp card_dealer, (esRand : ℕ)) :: ps := by
          rw [← h3]; exact hp'
        exact ⟨(hpairs p hp'').2.1, h4 p hp''⟩
      · rw [h2, h3]
        exact hfilter
      · intro s hs h21' a
        have hs' : s ∈ get_player_state hp card_dealer ::
            (ps.map Prod.fst ++ bust.toList) := by
          rw [← h2]; exact hs
        exact h5 s hs' h21' a

/-- Specification of the forced-hit stage (helper). -/
theorem esForce_spec (d : ESDicts) (esRand : Fin 2) (hand_dealer : List ℕ)
    (card_dealer : ℕ) (hand_player : List ℕ) (deck1 : List ℕ) (hinv : ESInv d)
    (hcd1 : 1 ≤ card_dealer) (hcd13 : card_dealer ≤ 13)
    (h21 : (get_hand_value hand_player).1 ≤ 21) :
    (∀ e, esForce d esRand hand_dealer card_dealer hand_player deck1 = .error e →
      e = .deckEmpty) ∧
    (∀ res, esForce d esRand hand_dealer card_dealer hand_player deck1 = .ok res →
      ESInv res.dicts ∧
      (∀ p ∈ res.pairs, p.1.1 ≤ 21 ∧ ∃ l, d.Qd p = some l ∧
        res.dicts.Qd p = some (l ++ [res.payoff]) ∧
        res.dicts.Qa p = some (listMean (l ++ [res.payoff]))) ∧
      res.states.filter (fun s => decide (s.1 ≤ 21)) = res.pairs.map Prod.fst ∧
      (∀ s ∈ res.states, 21 < s.1 → ∀ a, res.dicts.Qd (s, a) = d.Qd (s, a) ∧
        res.dicts.Qa (s, a) = d.Qa (s, a))) := by
  unfold esForce
  cases hforce : forcedHits deck1 hand_player with
  | error e =>
    constructor
    · intro e' h
      simp only [Except.error.injEq] at h
      exact h ▸ forcedHits_error deck1 hand_player e hforce
    · intro res h
      simp at h
  | ok r =>
    obtain ⟨hp2, deck2⟩ := r
    obtain ⟨hf1, hf2⟩ := forcedHits_spec deck1 hand_player hp2 deck2 h21 hforce
    exact esPlayer_spec d esRand hand_dealer card_dealer hp2 deck2 hinv
      hcd1 hcd13 hf1 hf2

/-- Full specification of one exploring-starts episode (helper): under the
table invariant, the only raisable error is deck exhaustion (never a
dictionary miss or an assertion failure), and a completed episode preserves
the invariant, credits the terminal payoff to exactly the visited
(state, action) pairs of the non-busted trajectory states, and leaves every
key of a busted state untouched. -/
theorem esEpisode_spec (deck : List ℕ) (esRand : Fin 2) (d : ESDicts)
    (hinv : ESInv d) :
    (∀ e, esEpisode deck esRand d = .error e → e = .deckEmpty) ∧
    (∀ res, esEpisode deck esRand d = .ok res →
      ESInv res.dicts ∧
      (∀ p ∈ res.pairs, p.1.1 ≤ 21 ∧ ∃ l, d.Qd p = some l ∧
        res.dicts.Qd p = some (l ++ [res.payoff]) ∧
        res.dicts.Qa p = some (listMean (l ++ [res.payoff]))) ∧
      res.states.filter (fun s => decide (s.1 ≤ 21)) = res.pairs.map Prod.fst ∧
      (∀ s ∈ res.states, 21 < s.1 → ∀ a, res.dicts.Qd (s, a) = d.Qd (s, a) ∧
        res.dicts.Qa (s, a) = d.Qa (s, a))) := by
  unfold esEpisode
  cases hdeal : deal deck with
  | error e =>
    constructor
    · intro e' h
      simp only [Except.error.injEq] at h
      exact h ▸ deal_error deck e hdeal
    · intro res h
      simp at h
  | ok quad =>
    obtain ⟨hp, hd, cd, deck1⟩ := quad
    obtain ⟨hlen, hcd1, hcd13⟩ := deal_spec deck hp hd cd deck1 hdeal
    exact esForce_spec d esRand hd cd hp deck1 hinv hcd1 hcd13 (twoCard_le21 hp hlen)

/-- Across any run prefix, the only raisable error is deck exhaustion
(helper). -/
theorem esRun_error (decks : ℕ → List ℕ) (esRands : ℕ → Fin 2) (l : List ℕ) :
    ∀ d : ESDicts, ESInv d →
      ∀ e, esRun decks esRands l d = .error e → e = .deckEmpty := by
  induction l with
  | nil =>
    intro d _ e h
    simp [esRun] at h
  | cons i rest ih =>
    intro d hinv e h
    rw [esRun] at h
    split at h
    · next e' he' =>
      simp only [Except.error.injEq] at h
      exact h ▸ (esEpisode_spec (decks i) (esRands i) d hinv).1 e' he'
    · next res hres =>
      exact ih res.dicts ((esEpisode_spec (decks i) (esRands i) d hinv).2 res hres).1 e h

/-- The explicit enumeration lists exactly the valid states (helper). -/
theorem mem_validStatesList (s : BJState) : s ∈ validStatesList ↔ validState s := by
  obtain ⟨pv, cd, ua⟩ := s
  unfold validStatesList validState
  simp only [List.mem_flatMap, List.mem_range'_1, List.mem_cons,
    List.not_mem_nil, or_false, Prod.mk.injEq]
  constructor
  · rintro ⟨i, hi, j, hj, (⟨rfl, rfl, rfl⟩ | ⟨rfl, rfl, rfl⟩)⟩ <;>
      exact ⟨by omega, by omega, by omega, by omega⟩
  · rintro ⟨h1, h2, h3, h4⟩
    refine ⟨pv, ⟨h1, by omega⟩, cd, ⟨h3, by omega⟩, ?_⟩
    cases ua
    · exact Or.inl ⟨rfl, rfl, rfl⟩
    · exact Or.inr ⟨rfl, rfl, rfl⟩

/-- The explicit enumeration lists exactly the valid (state, action) pairs
(helper). -/
theorem mem_validPairsList (k : BJState × ℕ) :
    k ∈ validPairsList ↔ validState k.1 ∧ k.2 < 2 := by
  obtain ⟨s, a⟩ := k
  unfold validPairsList
  simp only [List.mem_flatMap, List.mem_cons, List.not_mem_nil, or_false,
    Prod.mk.injEq]
  constructor
  · rintro ⟨s', hs', (⟨rfl, rfl⟩ | ⟨rfl, rfl⟩)⟩ <;>
      exact ⟨(mem_validStatesList _).mp hs', by omega⟩
  · rintro ⟨hv, ha⟩
    refine ⟨s, (mem_validStatesList s).mpr hv, ?_⟩
    match a, ha with
    | 0, _ => exact Or.inl ⟨rfl, rfl⟩
    | 1, _ => exact Or.inr ⟨rfl, rfl⟩

/-- C10: after the forced-hit loop the player total always lies in [12, 21];
the initialised policy table is defined on exactly the 260 enumerated states
and the Q tables on exactly the 520 enumerated (state, action) pairs; and no
run of `get_value_exploring_starts` — for any episode count, deck stream and
exploring-start stream — ever raises a `KeyError`: every dictionary key ever
read or written is pre-initialised. -/
theorem c10_state_space_safety :
    (∀ (deck hand h d : List ℕ), (get_hand_value hand).1 ≤ 21 →
      forcedHits deck hand = Except.ok (h, d) →
      12 ≤ (get_hand_value h).1 ∧ (get_hand_value h).1 ≤ 21) ∧
    (∀ s : BJState, (initDicts.policy s).isSome ↔ s ∈ validStatesList) ∧
    validStatesList.length = 260 ∧
    (∀ k : BJState × ℕ, (initDicts.Qd k).isSome ↔ k ∈ validPairsList) ∧
    validPairsList.length = 520 ∧
    (∀ (N : ℕ) (decks : ℕ → List ℕ) (esRands : ℕ → Fin 2),
      get_value_exploring_starts N decks esRands ≠
        Except.error RunError.keyError) := by
  refine ⟨forcedHits_spec, ?_, ?_, ?_, ?_, ?_⟩
  · intro s
    rw [mem_validStatesList]
    by_cases hv : validState s <;> simp [initDicts, policyInit, hv]
  · set_option maxRecDepth 4000 in decide
  · intro k
    rw [mem_validPairsList]
    by_cases hv : validState k.1 ∧ k.2 < 2 <;> simp [initDicts, QdInit, hv]
  · set_option maxRecDepth 4000 in decide
  · intro N decks esRands h
    unfold get_value_exploring_starts at h
    split at h
    · next e he =>
      simp only [Except.error.injEq] at h
      subst h
      exact absurd (esRun_error decks esRands (List.range N) initDicts ESInv_init
        _ he) (by simp)
    · simp at h

/-- Witness for C10: a concrete forced-hit run landing at 15 ∈ [12, 21], and
a concrete zero-episode control run raising no `KeyError`. -/
theorem c10_state_space_safety_witness :
    (12 ≤ (get_hand_value [10, 5]).1 ∧ (get_hand_value [10, 5]).1 ≤ 21) ∧
    get_value_exploring_starts 0 (fun _ => []) (fun _ => 0) ≠
      Except.error RunError.keyError :=
  ⟨c10_state_space_safety.1 [5] [10, 5] [10, 5] [5] (by decide) rfl,
   c10_state_space_safety.2.2.2.2.2 0 (fun _ => []) (fun _ => 0)⟩

/-- C1: after an exploring-starts episode, the terminal payoff has been
appended to the return list of every (state, action) pair visited in the
trajectory whose state totals at most 21, and that pair's running mean has
been recomputed as the mean of the extended list; the credited pairs are
exactly the non-busted trajectory states; busted states (total > 21) receive
no credit, their table entries are untouched. -/
theorem c1_credit_assignment (deck : List ℕ) (esRand : Fin 2) (d : ESDicts)
    (hinv : ESInv d) (res : EpisodeResult)
    (hok : esEpisode deck esRand d = Except.ok res) :
    (∀ p ∈ res.pairs, p.1.1 ≤ 21 ∧ ∃ l, d.Qd p = some l ∧
      res.dicts.Qd p = some (l ++ [res.payoff]) ∧
      res.dicts.Qa p = some (listMean (l ++ [res.payoff]))) ∧
    res.states.filter (fun s => decide (s.1 ≤ 21)) = res.pairs.map Prod.fst ∧
    (∀ s ∈ res.states, 21 < s.1 → ∀ a, res.dicts.Qd (s, a) = d.Qd (s, a) ∧
      res.dicts.Qa (s, a) = d.Qa (s, a)) := by
  obtain ⟨-, h2, h3, h4⟩ := (esEpisode_spec deck esRand d hinv).2 res hok
  exact ⟨h2, h3, h4⟩

/-- Witness for C1 on the concrete deck `c1deck` (player A♠K = 21 with a
usable ace, dealer 10 over 19) with exploring-start action 0, run from the
freshly initialised tables. -/
theorem c1_credit_assignment_witness :
    ∃ res, esEpisode c1deck 0 initDicts = Except.ok res ∧
      ((∀ p ∈ res.pairs, p.1.1 ≤ 21 ∧ ∃ l, initDicts.Qd p = some l ∧
        res.dicts.Qd p = some (l ++ [res.payoff]) ∧
        res.dicts.Qa p = some (listMean (l ++ [res.payoff]))) ∧
      res.states.filter (fun s => decide (s.1 ≤ 21)) = res.pairs.map Prod.fst ∧
      (∀ s ∈ res.states, 21 < s.1 → ∀ a,
        res.dicts.Qd (s, a) = initDicts.Qd (s, a) ∧
        res.dicts.Qa (s, a) = initDicts.Qa (s, a))) := by
  obtain ⟨res, hres⟩ := exists_ok_of_isOk (esEpisode c1deck 0 initDicts)
    (by with_unfolding_all rfl)
  exact ⟨res, hres, c1_credit_assignment c1deck 0 initDicts ESInv_init res hres⟩

/-- Witness for the amended C9 at concrete invalid configurations: a
negative play count is never reported as `InvalidConfiguration` and never
completes normally, and a negative bandit count raises the line-41
`ValueError`. -/
theorem c9_amended_no_validation_witness :
    n_armed_bandit (fun _ _ => 0) ⟨fun _ => 0, fun _ => 0, fun _ => 0⟩ 5 10 (-3) [0, 1] ≠
      Except.error BanditError.invalidConfiguration ∧
    n_armed_bandit (fun _ _ => 0) ⟨fun _ => 0, fun _ => 0, fun _ => 0⟩ (-1) 10 5 [0] =
      Except.error BanditError.valueError ∧
    exceptIsOk (n_armed_bandit (fun _ _ => 0) ⟨fun _ => 0, fun _ => 0, fun _ => 0⟩
      5 10 (-3) [0, 1]) = false :=
  ⟨c9_amended_no_validation.1 (fun _ _ => 0) ⟨fun _ => 0, fun _ => 0, fun _ => 0⟩
      5 10 (-3) [0, 1],
   c9_amended_no_validation.2.1 (fun _ _ => 0) ⟨fun _ => 0, fun _ => 0, fun _ => 0⟩
      (-1) 10 5 [0] (Or.inl (by decide)),
   c9_amended_no_validation.2.2 (fun _ _ => 0) ⟨fun _ => 0, fun _ => 0, fun _ => 0⟩
      5 10 [0, 1] (-3) (by decide)⟩

end RLRepo
